import Mathlib

/-!
Verification of the SAT presolver/postsolver core of `sat/simplification.h`
(or-tools). Only the header (declarations and documentation comments) of the
subsystem is available, so the operational definitions below are shallow
embeddings reconstructed from the header comments and the design document;
each such definition carries a doc comment explaining its provenance.

Encoding conventions (from the design document, section 3):
a literal is a natural number `2*variable + polarity`; negation is xor with 1;
a clause is a sorted, duplicate-free list of literals.
-/

set_option maxHeartbeats 1000000

namespace SatSimp

/-
Literals are plain naturals: literal index `2*variable + polarity`.
-/

/-- Negation of a literal: flips the low bit (`literalIndex xor 1`). -/
def negate (l : Nat) : Nat := if l % 2 = 0 then l + 1 else l - 1

/-- Variable of a literal. -/
def litVar (l : Nat) : Nat := l / 2

/-- Polarity of a literal: literal `2*v` asserts that variable `v` is true. -/
def pol (l : Nat) : Bool := l % 2 == 0

theorem negate_even {l : Nat} (h : l % 2 = 0) : negate l = l + 1 := by
  unfold negate; rw [if_pos h]

theorem negate_odd {l : Nat} (h : ¬(l % 2 = 0)) : negate l = l - 1 := by
  unfold negate; rw [if_neg h]

theorem negate_negate (l : Nat) : negate (negate l) = l := by
  by_cases h : l % 2 = 0
  · rw [negate_even h, negate_odd (by omega)]; omega
  · rw [negate_odd h, negate_even (by omega)]; omega

theorem negate_ne_self (l : Nat) : negate l ≠ l := by
  by_cases h : l % 2 = 0
  · rw [negate_even h]; omega
  · rw [negate_odd h]; omega

theorem litVar_negate (l : Nat) : litVar (negate l) = litVar l := by
  unfold litVar
  by_cases h : l % 2 = 0
  · rw [negate_even h]; omega
  · rw [negate_odd h]; omega

theorem negate_inj {a b : Nat} (h : negate a = negate b) : a = b := by
  have := congrArg negate h
  rwa [negate_negate, negate_negate] at this

theorem pol_negate (l : Nat) : pol (negate l) = !pol l := by
  unfold pol
  by_cases h : l % 2 = 0
  · rw [negate_even h, h]
    have h2 : (l + 1) % 2 = 1 := by omega
    rw [h2]; rfl
  · have h1 : l % 2 = 1 := by omega
    rw [negate_odd h, h1]
    have h2 : (l - 1) % 2 = 0 := by omega
    rw [h2]; rfl

theorem litVar_eq_cases {a b : Nat} (h : litVar a = litVar b) :
    a = b ∨ a = negate b := by
  unfold litVar at h
  by_cases hb : b % 2 = 0
  · rw [negate_even hb]; omega
  · rw [negate_odd hb]; omega

theorem negate_eq_add_one_of_lt {x : Nat} (h : x < negate x) : negate x = x + 1 := by
  by_cases hp : x % 2 = 0
  · exact negate_even hp
  · rw [negate_odd hp] at h; omega

/-! ### Sorted union of literal lists -/

/-- Insert a literal into a sorted duplicate-free list, keeping it sorted
and duplicate-free. -/
def insertLit (x : Nat) : List Nat → List Nat
  | [] => [x]
  | y :: ys => if x = y then y :: ys
      else if x < y then x :: y :: ys
      else y :: insertLit x ys

/-- Modelled from the spec: the body of `ComputeResolvant`
(`sat/simplification.h`, declaration only; the .cc implementation is not in
the sources) computes the sorted union of two sorted clauses. -/
def mergeUnion (a b : List Nat) : List Nat := a.foldr insertLit b

theorem mem_insertLit {l x : Nat} {c : List Nat} :
    l ∈ insertLit x c ↔ l = x ∨ l ∈ c := by
  induction c with
  | nil => simp [insertLit]
  | cons y ys ih =>
      by_cases hxy : x = y
      · subst hxy
        simp only [insertLit, if_pos rfl]
        constructor
        · intro h; right; exact h
        · rintro (h | h)
          · subst h; exact List.mem_cons_self _ _
          · exact h
      · by_cases hlt : x < y
        · simp [insertLit, hxy, hlt]
        · simp only [insertLit, if_neg hxy, if_neg hlt, List.mem_cons, ih]
          tauto

theorem sorted_insertLit {x : Nat} {c : List Nat}
    (h : List.Sorted (· < ·) c) : List.Sorted (· < ·) (insertLit x c) := by
  induction c with
  | nil => simp [insertLit]
  | cons y ys ih =>
      rw [List.sorted_cons] at h
      obtain ⟨hy, hys⟩ := h
      by_cases hxy : x = y
      · subst hxy
        simpa [insertLit, List.sorted_cons] using ⟨hy, hys⟩
      · by_cases hlt : x < y
        · simp only [insertLit, if_neg hxy, if_pos hlt, List.sorted_cons]
          refine ⟨?_, hy, hys⟩
          intro b hb
          rcases List.mem_cons.mp hb with h1 | h1
          · omega
          · exact lt_trans hlt (hy b h1)
        · have hgt : y < x := by omega
          simp only [insertLit, if_neg hxy, if_neg hlt, List.sorted_cons]
          refine ⟨?_, ih hys⟩
          intro b hb
          rcases mem_insertLit.mp hb with h1 | h1
          · omega
          · exact hy b h1

theorem mem_mergeUnion {l : Nat} {a b : List Nat} :
    l ∈ mergeUnion a b ↔ l ∈ a ∨ l ∈ b := by
  induction a with
  | nil => simp [mergeUnion]
  | cons x xs ih =>
      simp only [mergeUnion, List.foldr_cons]
      rw [show xs.foldr insertLit b = mergeUnion xs b from rfl] at *
      rw [mem_insertLit, ih]
      simp [List.mem_cons]
      tauto

theorem sorted_mergeUnion {a b : List Nat}
    (hb : List.Sorted (· < ·) b) : List.Sorted (· < ·) (mergeUnion a b) := by
  induction a with
  | nil => simpa [mergeUnion] using hb
  | cons x xs ih => exact sorted_insertLit ih

/-! ### Detection of opposite-literal pairs in a sorted clause -/

/-- Scan a sorted clause for a pair of adjacent opposite literals.  In a
strictly sorted list, a literal and its negation are adjacent when both are
present. -/
def hasOppositePair : List Nat → Bool
  | x :: y :: rest => (y == negate x) || hasOppositePair (y :: rest)
  | _ => false

theorem hasOppositePair_sound {c : List Nat} (h : hasOppositePair c = true) :
    ∃ l, l ∈ c ∧ negate l ∈ c := by
  induction c with
  | nil => simp [hasOppositePair] at h
  | cons x rest ih =>
      cases rest with
      | nil => simp [hasOppositePair] at h
      | cons y ys =>
          simp only [hasOppositePair, Bool.or_eq_true, beq_iff_eq] at h
          rcases h with h | h
          · exact ⟨x, List.mem_cons_self _ _, by
              rw [← h]; exact List.mem_cons_of_mem _ (List.mem_cons_self _ _)⟩
          · obtain ⟨l, hl, hnl⟩ := ih h
            exact ⟨l, List.mem_cons_of_mem _ hl, List.mem_cons_of_mem _ hnl⟩

theorem hasOppositePair_complete {c : List Nat}
    (hs : List.Sorted (· < ·) c) {l : Nat} (hl : l ∈ c) (hnl : negate l ∈ c) :
    hasOppositePair c = true := by
  induction c with
  | nil => simp at hl
  | cons x rest ih =>
      rw [List.sorted_cons] at hs
      obtain ⟨hx, hrest⟩ := hs
      by_cases hcase : negate x ∈ rest
      · -- the pair (x, negate x) is split across the head and the tail;
        -- sortedness forces negate x to be the next element.
        have hgt : x < negate x := hx _ hcase
        have hx1 : negate x = x + 1 := negate_eq_add_one_of_lt hgt
        cases rest with
        | nil => simp at hcase
        | cons y ys =>
            rw [List.sorted_cons] at hrest
            obtain ⟨hy, _⟩ := hrest
            have hyx : y = negate x := by
              rcases List.mem_cons.mp hcase with h3 | h3
              · exact h3.symm
              · have h4 := hy _ h3
                have h5 := hx _ (List.mem_cons_self y ys)
                omega
            simp [hasOppositePair, hyx]
      · -- the pair lies entirely inside the tail.
        have hl2 : l ∈ rest := by
          rcases List.mem_cons.mp hl with h1 | h1
          · exfalso
            rcases List.mem_cons.mp hnl with h2 | h2
            · rw [h1] at h2; exact negate_ne_self x h2
            · rw [h1] at h2; exact hcase h2
          · exact h1
        have hnl2 : negate l ∈ rest := by
          rcases List.mem_cons.mp hnl with h2 | h2
          · exfalso
            have hlx : l = negate x := by
              have := congrArg negate h2
              rwa [negate_negate] at this
            rcases List.mem_cons.mp hl with h1 | h1
            · rw [h1] at hlx; exact negate_ne_self x hlx.symm
            · rw [hlx] at h1; exact hcase h1
          · exact h2
        cases rest with
        | nil => simp at hl2
        | cons y ys =>
            have hr := ih hrest hl2 hnl2
            simp only [hasOppositePair, Bool.or_eq_true]
            right
            exact hr

theorem not_opposite_of_sorted {c : List Nat}
    (hs : List.Sorted (· < ·) c) (h : hasOppositePair c = false) :
    ∀ l ∈ c, negate l ∉ c := by
  intro l hl hnl
  have := hasOppositePair_complete hs hl hnl
  rw [h] at this
  exact Bool.false_ne_true this

/-! ### ComputeResolvant -/

/-- Modelled from the spec: `ComputeResolvant(x, a, b, out)` of
`sat/simplification.h` (only the declaration and its comment are in the
sources).  Per the header comment, the resolvant is `a` union `b` with the
literals `x` and `not(x)` removed; if the resolvant is trivially true
(contains a variable in both polarities) the function returns false
(here: `none`), otherwise it returns the sorted resolvant. -/
def computeResolvant (x : Nat) (a b : List Nat) : Option (List Nat) :=
  let u := mergeUnion (a.erase x) (b.erase (negate x))
  if hasOppositePair u then none else some u

/-- Modelled from the spec: `ComputeResolvantSize` of `sat/simplification.h`;
same as `ComputeResolvant` but only returns the size, `-1` when the resolvant
is trivially true. -/
def computeResolvantSize (x : Nat) (a b : List Nat) : Int :=
  match computeResolvant x a b with
  | none => -1
  | some out => out.length

theorem sorted_nodup {c : List Nat} (h : List.Sorted (· < ·) c) : c.Nodup :=
  h.nodup

theorem mem_erase_sorted {c : List Nat} (h : List.Sorted (· < ·) c)
    {l x : Nat} : l ∈ c.erase x ↔ l ≠ x ∧ l ∈ c :=
  (sorted_nodup h).mem_erase_iff

/-- Membership in the resolvant union, for sorted inputs. -/
theorem mem_resolvant_union {x : Nat} {a b : List Nat}
    (ha : List.Sorted (· < ·) a) (hb : List.Sorted (· < ·) b) (l : Nat) :
    l ∈ mergeUnion (a.erase x) (b.erase (negate x)) ↔
      (l ∈ a ∧ l ≠ x) ∨ (l ∈ b ∧ l ≠ negate x) := by
  rw [mem_mergeUnion, mem_erase_sorted ha, mem_erase_sorted hb]
  tauto

theorem sorted_erase {c : List Nat} (h : List.Sorted (· < ·) c) (x : Nat) :
    List.Sorted (· < ·) (c.erase x) :=
  List.Pairwise.sublist (List.erase_sublist x c) h

/-- C3: for every literal `x` and sorted clauses `a` and `b` with `x` in `a`
and `not x` in `b`, `ComputeResolvant(x, a, b, out)` returns false iff the
union of `a` minus `x` and `b` minus `not x` contains some variable in both
polarities; otherwise it returns true and `out` is exactly that union,
deduplicated and sorted. -/
theorem c3_computeResolvant (x : Nat) (a b : List Nat)
    (ha : List.Sorted (· < ·) a) (hb : List.Sorted (· < ·) b)
    (hxa : x ∈ a) (hxb : negate x ∈ b) :
    (computeResolvant x a b = none ↔
      ∃ l, ((l ∈ a ∧ l ≠ x) ∨ (l ∈ b ∧ l ≠ negate x)) ∧
           ((negate l ∈ a ∧ negate l ≠ x) ∨ (negate l ∈ b ∧ negate l ≠ negate x))) ∧
    (∀ out, computeResolvant x a b = some out →
      List.Sorted (· < ·) out ∧ out.Nodup ∧
      (∀ l, l ∈ out ↔ ((l ∈ a ∧ l ≠ x) ∨ (l ∈ b ∧ l ≠ negate x)))) := by
  clear hxa hxb
  have hu : List.Sorted (· < ·) (mergeUnion (a.erase x) (b.erase (negate x))) :=
    sorted_mergeUnion (sorted_erase hb (negate x))
  have hcr : computeResolvant x a b =
      if hasOppositePair (mergeUnion (a.erase x) (b.erase (negate x)))
      then none else some (mergeUnion (a.erase x) (b.erase (negate x))) := rfl
  constructor
  · constructor
    · intro hnone
      rw [hcr] at hnone
      by_cases hop : hasOppositePair (mergeUnion (a.erase x) (b.erase (negate x))) = true
      · obtain ⟨l, hl, hnl⟩ := hasOppositePair_sound hop
        exact ⟨l, (mem_resolvant_union ha hb l).mp hl,
          (mem_resolvant_union ha hb (negate l)).mp hnl⟩
      · rw [if_neg hop] at hnone; cases hnone
    · rintro ⟨l, h1, h2⟩
      have hl := (mem_resolvant_union ha hb l).mpr h1
      have hnl := (mem_resolvant_union ha hb (negate l)).mpr h2
      rw [hcr, if_pos (hasOppositePair_complete hu hl hnl)]
  · intro out hout
    rw [hcr] at hout
    by_cases hop : hasOppositePair (mergeUnion (a.erase x) (b.erase (negate x))) = true
    · rw [if_pos hop] at hout; cases hout
    · rw [if_neg hop] at hout
      cases hout
      exact ⟨hu, sorted_nodup hu, fun l => mem_resolvant_union ha hb l⟩

theorem c3_computeResolvant_witness :
    List.Sorted (· < ·) ([2, 4] : List Nat) ∧
    (∀ l, l ∈ ([2, 4] : List Nat) ↔
      ((l ∈ ([0, 2] : List Nat) ∧ l ≠ 0) ∨ (l ∈ ([1, 4] : List Nat) ∧ l ≠ negate 0))) := by
  have h := (c3_computeResolvant 0 [0, 2] [1, 4] (by decide) (by decide)
    (by decide) (by decide)).2 [2, 4] (by decide)
  exact ⟨h.1, h.2.2⟩

/-! ### SimplifyClause -/

/-- Scan a sorted clause `b` for the literal `a`: skip over smaller literals,
succeed on an exact match (second component `none`) or on a match with the
opposite literal `y` (second component `some y`), and fail when `a` can no
longer occur.  This is the `b`-advancing inner loop of the merge scan of
`SimplifyClause`. -/
def scanB (a : Nat) : List Nat → Option (List Nat × Option Nat)
  | [] => none
  | y :: ys =>
      if a = y then some (ys, none)
      else if a = negate y then some (ys, some y)
      else if a < y then none
      else scanB a ys

/-- Modelled from the spec: the merge scan of `SimplifyClause(a, b,
opposite_literal)` of `sat/simplification.h` (declaration only; the .cc
implementation is not in the sources).  The scan walks the two sorted
clauses; result `none` means the C++ function returns false, `some none`
means it returns true with `opposite_literal = -1` (subsumption), and
`some (some y)` means it returns true with `opposite_literal = y`, the
literal of `b` whose negation occurs in `a` (self-subsumption).  A second
opposite literal aborts the scan. -/
def simplifyScan : List Nat → List Nat → Option Nat → Option (Option Nat)
  | [], _, opp => some opp
  | a :: as, b, opp =>
      match scanB a b with
      | none => none
      | some (rest, none) => simplifyScan as rest opp
      | some (rest, some y) =>
          match opp with
          | some _ => none
          | none => simplifyScan as rest (some y)

/-- Modelled from the spec: `SimplifyClause(a, b, opposite_literal)` of
`sat/simplification.h`.  On subsumption it reports `(none, b)`; on
self-subsumption with opposite literal `y` it reports `(some y, b)` with `y`
removed from `b`, as the header comment describes. -/
def simplifyClause (a b : List Nat) : Option (Option Nat × List Nat) :=
  match simplifyScan a b none with
  | none => none
  | some none => some (none, b)
  | some (some y) => some (some y, b.erase y)

theorem scanB_sublist {a : Nat} {b rest : List Nat} {o : Option Nat}
    (h : scanB a b = some (rest, o)) : rest.Sublist b := by
  induction b with
  | nil => cases h
  | cons y ys ih =>
      unfold scanB at h
      by_cases h1 : a = y
      · rw [if_pos h1] at h; cases h; exact List.sublist_cons_self y rest
      · rw [if_neg h1] at h
        by_cases h2 : a = negate y
        · rw [if_pos h2] at h; cases h; exact List.sublist_cons_self y rest
        · rw [if_neg h2] at h
          by_cases h3 : a < y
          · rw [if_pos h3] at h; cases h
          · rw [if_neg h3] at h
            exact (ih h).trans (List.sublist_cons_self y ys)

theorem scanB_exact_mem {a : Nat} {b rest : List Nat}
    (h : scanB a b = some (rest, none)) : a ∈ b := by
  induction b with
  | nil => cases h
  | cons y ys ih =>
      unfold scanB at h
      by_cases h1 : a = y
      · rw [h1]; exact List.mem_cons_self y ys
      · rw [if_neg h1] at h
        by_cases h2 : a = negate y
        · rw [if_pos h2] at h; cases h
        · rw [if_neg h2] at h
          by_cases h3 : a < y
          · rw [if_pos h3] at h; cases h
          · rw [if_neg h3] at h
            exact List.mem_cons_of_mem y (ih h)

theorem scanB_flip_mem {a : Nat} {b rest : List Nat} {y : Nat}
    (h : scanB a b = some (rest, some y)) : y ∈ b ∧ a = negate y := by
  induction b with
  | nil => cases h
  | cons z zs ih =>
      unfold scanB at h
      by_cases h1 : a = z
      · rw [if_pos h1] at h; cases h
      · rw [if_neg h1] at h
        by_cases h2 : a = negate z
        · rw [if_pos h2] at h
          cases h
          exact ⟨List.mem_cons_self _ _, h2⟩
        · rw [if_neg h2] at h
          by_cases h3 : a < z
          · rw [if_pos h3] at h; cases h
          · rw [if_neg h3] at h
            obtain ⟨hy, he⟩ := ih h
            exact ⟨List.mem_cons_of_mem z hy, he⟩

theorem nt_of_sublist {b c : List Nat} (hsub : c.Sublist b)
    (hnt : ∀ w ∈ b, negate w ∉ b) : ∀ w ∈ c, negate w ∉ c :=
  fun w hw hnw => hnt w (hsub.subset hw) (hsub.subset hnw)

/-- If the scan succeeds with no opposite literal, the first clause is a
subset of the second and the initial accumulator is returned unchanged. -/
theorem simplifyScan_none_sound {A : List Nat} :
    ∀ {b : List Nat} {opp : Option Nat},
      simplifyScan A b opp = some none → opp = none ∧ ∀ l ∈ A, l ∈ b := by
  induction A with
  | nil =>
      intro b opp h
      cases h
      exact ⟨rfl, by simp⟩
  | cons a as ih =>
      intro b opp h
      cases hsb : scanB a b with
      | none => simp only [simplifyScan, hsb] at h; cases h
      | some p =>
          obtain ⟨rest, o⟩ := p
          cases o with
          | none =>
              simp only [simplifyScan, hsb] at h
              obtain ⟨ho, hsub⟩ := ih h
              refine ⟨ho, ?_⟩
              intro l hl
              rcases List.mem_cons.mp hl with h1 | h1
              · rw [h1]; exact scanB_exact_mem hsb
              · exact (scanB_sublist hsb).subset (hsub l h1)
          | some y =>
              cases opp with
              | some z => simp only [simplifyScan, hsb] at h; cases h
              | none =>
                  simp only [simplifyScan, hsb] at h
                  obtain ⟨ho, _⟩ := ih h
                  cases ho

/-- If the scan succeeds with opposite literal `l`, then either the
accumulator already held `l` and the first clause is a subset of the second,
or the flip happened here: `negate l` occurs in the first clause and the
first clause with `negate l` replaced by `l` is a subset of the second. -/
theorem simplifyScan_flip_sound {A : List Nat} :
    ∀ {b : List Nat} {opp : Option Nat} {l : Nat},
      simplifyScan A b opp = some (some l) →
      (opp = some l ∧ ∀ t ∈ A, t ∈ b) ∨
      (opp = none ∧ negate l ∈ A ∧
        ∀ t ∈ A, (if t = negate l then l else t) ∈ b) := by
  induction A with
  | nil =>
      intro b opp l h
      cases h
      exact Or.inl ⟨rfl, by simp⟩
  | cons a as ih =>
      intro b opp l h
      cases hsb : scanB a b with
      | none => simp only [simplifyScan, hsb] at h; cases h
      | some p =>
          obtain ⟨rest, o⟩ := p
          cases o with
          | none =>
              simp only [simplifyScan, hsb] at h
              rcases ih h with ⟨ho, hsub⟩ | ⟨ho, hm, himg⟩
              · refine Or.inl ⟨ho, ?_⟩
                intro t ht
                rcases List.mem_cons.mp ht with h1 | h1
                · rw [h1]; exact scanB_exact_mem hsb
                · exact (scanB_sublist hsb).subset (hsub t h1)
              · refine Or.inr ⟨ho, List.mem_cons_of_mem a hm, ?_⟩
                intro t ht
                rcases List.mem_cons.mp ht with h1 | h1
                · by_cases hfl : t = negate l
                  · rw [if_pos hfl]
                    have := himg (negate l) hm
                    rw [if_pos rfl] at this
                    exact (scanB_sublist hsb).subset this
                  · rw [if_neg hfl, h1]
                    exact scanB_exact_mem hsb
                · exact (scanB_sublist hsb).subset (himg t h1)
          | some y =>
              cases opp with
              | some z => simp only [simplifyScan, hsb] at h; cases h
              | none =>
                  simp only [simplifyScan, hsb] at h
                  rcases ih h with ⟨ho, hsub⟩ | ⟨ho, _, _⟩
                  · have hyl : y = l := Option.some.inj ho
                    obtain ⟨hyb, hay⟩ := scanB_flip_mem hsb
                    refine Or.inr ⟨rfl, ?_, ?_⟩
                    · rw [← hyl, ← hay]
                      exact List.mem_cons_self a as
                    · intro t ht
                      rcases List.mem_cons.mp ht with h1 | h1
                      · have : t = negate l := by rw [h1, hay, hyl]
                        rw [if_pos this, ← hyl]
                        exact hyb
                      · by_cases hfl : t = negate l
                        · rw [if_pos hfl, ← hyl]
                          exact hyb
                        · rw [if_neg hfl]
                          exact (scanB_sublist hsb).subset (hsub t h1)
                  · cases ho

/-- Completeness of the inner scan on an exact match: if `a` occurs in a
sorted clause `b` free of opposite pairs, the scan finds it and every larger
element of `b` survives into the returned tail. -/
theorem scanB_exact_complete {b : List Nat} (hs : List.Sorted (· < ·) b)
    (hnt : ∀ w ∈ b, negate w ∉ b) {a : Nat} (ha : a ∈ b) :
    ∃ rest, scanB a b = some (rest, none) ∧ ∀ t ∈ b, a < t → t ∈ rest := by
  induction b with
  | nil => cases ha
  | cons y ys ih =>
      rw [List.sorted_cons] at hs
      obtain ⟨hy, hys⟩ := hs
      by_cases h1 : a = y
      · refine ⟨ys, ?_, ?_⟩
        · unfold scanB; rw [if_pos h1]
        · intro t ht hat
          rcases List.mem_cons.mp ht with h2 | h2
          · omega
          · exact h2
      · have hays : a ∈ ys := by
          rcases List.mem_cons.mp ha with h2 | h2
          · exact absurd h2 h1
          · exact h2
        have hya : y < a := hy a hays
        have h2 : ¬(a = negate y) := by
          intro he
          exact hnt y (List.mem_cons_self y ys)
            (he ▸ List.mem_cons_of_mem y hays)
        have h3 : ¬(a < y) := by omega
        obtain ⟨rest, hr, htail⟩ :=
          ih hys (fun w hw hnw =>
            hnt w (List.mem_cons_of_mem y hw) (List.mem_cons_of_mem y hnw)) hays
        refine ⟨rest, ?_, ?_⟩
        · unfold scanB; rw [if_neg h1, if_neg h2, if_neg h3]; exact hr
        · intro t ht hat
          rcases List.mem_cons.mp ht with h4 | h4
          · omega
          · exact htail t h4 hat

/-- Completeness of the inner scan on a flip: if `l` occurs in a sorted
clause `b` free of opposite pairs, scanning for `negate l` reports the
opposite literal `l`, and every element of `b` larger than `l` survives
into the returned tail. -/
theorem scanB_flip_complete {b : List Nat} (hs : List.Sorted (· < ·) b)
    (hnt : ∀ w ∈ b, negate w ∉ b) {l : Nat} (hl : l ∈ b) :
    ∃ rest, scanB (negate l) b = some (rest, some l) ∧
      ∀ t ∈ b, l < t → t ∈ rest := by
  induction b with
  | nil => cases hl
  | cons y ys ih =>
      rw [List.sorted_cons] at hs
      obtain ⟨hy, hys⟩ := hs
      by_cases h0 : y = l
      · have h1 : ¬(negate l = y) := fun he => negate_ne_self l (he.trans h0)
        have h2 : negate l = negate y := by rw [h0]
        refine ⟨ys, ?_, ?_⟩
        · unfold scanB; rw [if_neg h1, if_pos h2, h0]
        · intro t ht hlt
          rcases List.mem_cons.mp ht with h3 | h3
          · omega
          · exact h3
      · have hlys : l ∈ ys := by
          rcases List.mem_cons.mp hl with h3 | h3
          · exact absurd h3.symm h0
          · exact h3
        have hyl : y < l := hy l hlys
        have h1 : ¬(negate l = y) := by
          intro he
          exact hnt l hl (he ▸ List.mem_cons_self y ys)
        have h2 : ¬(negate l = negate y) := fun he => h0 (negate_inj he).symm
        have h3 : ¬(negate l < y) := by
          by_cases hp : l % 2 = 0
          · rw [negate_even hp]; omega
          · rw [negate_odd hp]
            rw [negate_odd hp] at h1
            omega
        obtain ⟨rest, hr, htail⟩ :=
          ih hys (fun w hw hnw =>
            hnt w (List.mem_cons_of_mem y hw) (List.mem_cons_of_mem y hnw)) hlys
        refine ⟨rest, ?_, ?_⟩
        · unfold scanB; rw [if_neg h1, if_neg h2, if_neg h3]; exact hr
        · intro t ht hlt
          rcases List.mem_cons.mp ht with h4 | h4
          · omega
          · exact htail t h4 hlt

/-- Completeness for subsumption: scanning a sorted clause that is a subset
of a sorted opposite-pair-free clause succeeds and returns the accumulator. -/
theorem simplifyScan_of_subset {A : List Nat} :
    ∀ {b : List Nat} (opp : Option Nat),
      List.Sorted (· < ·) A → List.Sorted (· < ·) b →
      (∀ w ∈ b, negate w ∉ b) → (∀ l ∈ A, l ∈ b) →
      simplifyScan A b opp = some opp := by
  induction A with
  | nil => intro b opp _ _ _ _; rfl
  | cons a as ih =>
      intro b opp hA hb hnt hsub
      rw [List.sorted_cons] at hA
      obtain ⟨hhead, hastl⟩ := hA
      obtain ⟨rest, hr, htail⟩ :=
        scanB_exact_complete hb hnt (hsub a (List.mem_cons_self a as))
      simp only [simplifyScan, hr]
      exact ih opp hastl (List.Pairwise.sublist (scanB_sublist hr) hb)
        (nt_of_sublist (scanB_sublist hr) hnt)
        (fun t ht => htail t (hsub t (List.mem_cons_of_mem a ht)) (hhead t ht))

/-- Completeness for self-subsumption: if the first clause with `negate l`
replaced by `l` is a subset of the second, the scan reports opposite
literal `l`.  Both clauses are sorted and free of opposite pairs. -/
theorem simplifyScan_of_flip {A : List Nat} :
    ∀ {b : List Nat} {l : Nat},
      List.Sorted (· < ·) A → List.Sorted (· < ·) b →
      (∀ w ∈ A, negate w ∉ A) → (∀ w ∈ b, negate w ∉ b) →
      negate l ∈ A → (∀ t ∈ A, (if t = negate l then l else t) ∈ b) →
      simplifyScan A b none = some (some l) := by
  induction A with
  | nil => intro b l _ _ _ _ hmem _; cases hmem
  | cons a as ih =>
      intro b l hA hb hntA hntb hmem himg
      rw [List.sorted_cons] at hA
      obtain ⟨hhead, hastl⟩ := hA
      by_cases hfl : a = negate l
      · -- the flip happens at the head of A
        have hlb : l ∈ b := by
          have := himg a (List.mem_cons_self a as)
          rwa [if_pos hfl] at this
        obtain ⟨rest, hr, htail⟩ := scanB_flip_complete hb hntb hlb
        have hr2 : scanB a b = some (rest, some l) := by rw [hfl]; exact hr
        simp only [simplifyScan, hr2]
        apply simplifyScan_of_subset (some l) hastl
          (List.Pairwise.sublist (scanB_sublist hr) hb)
          (nt_of_sublist (scanB_sublist hr) hntb)
        intro t ht
        have hta : a < t := hhead t ht
        have htne : t ≠ negate l := by omega
        have htb : t ∈ b := by
          have := himg t (List.mem_cons_of_mem a ht)
          rwa [if_neg htne] at this
        have htl : t ≠ l := by
          intro he
          exact hntA t (List.mem_cons_of_mem a ht)
            (by rw [he, ← hfl]; exact List.mem_cons_self a as)
        have hlt : l < t := by
          by_cases hp : l % 2 = 0
          · rw [negate_even hp] at hfl; omega
          · rw [negate_odd hp] at hfl; omega
        exact htail t htb hlt
      · -- the head has an exact match in b
        have hmem2 : negate l ∈ as := by
          rcases List.mem_cons.mp hmem with h1 | h1
          · exact absurd h1.symm hfl
          · exact h1
        have hab : a ∈ b := by
          have := himg a (List.mem_cons_self a as)
          rwa [if_neg hfl] at this
        obtain ⟨rest, hr, htail⟩ := scanB_exact_complete hb hntb hab
        simp only [simplifyScan, hr]
        apply ih hastl (List.Pairwise.sublist (scanB_sublist hr) hb)
          (fun w hw hnw =>
            hntA w (List.mem_cons_of_mem a hw) (List.mem_cons_of_mem a hnw))
          (nt_of_sublist (scanB_sublist hr) hntb) hmem2
        intro t ht
        have himgt := himg t (List.mem_cons_of_mem a ht)
        by_cases htn : t = negate l
        · rw [if_pos htn] at himgt ⊢
          have hal : a < negate l := by
            have := hhead t ht
            omega
          have hne : l ≠ a := by
            intro he
            exact hntA a (List.mem_cons_self a as) (he ▸ hmem)
          have hlt2 : a < l := by
            by_cases hp : negate l % 2 = 0
            · have : l = negate l + 1 := by
                have h5 := negate_even hp
                have h6 := negate_negate l
                omega
              omega
            · have : l = negate l - 1 ∧ 1 ≤ negate l := by
                have h5 := negate_odd hp
                have h6 := negate_negate l
                omega
              omega
          exact htail l himgt hlt2
        · rw [if_neg htn] at himgt ⊢
          exact htail t himgt (hhead t ht)


/-- C2 as stated fails: for the sorted clauses `a = [3]` and `b = [2, 3]`
(literal 3 is the negation of literal 2), every literal of `a` occurs in
`b`, yet `SimplifyClause` reports self-subsumption with opposite literal 2
instead of subsumption.  The claimed equivalences only hold when neither
clause contains a variable in both polarities. -/
theorem c2_counterexample :
    List.Sorted (· < ·) ([3] : List Nat) ∧
    List.Sorted (· < ·) ([2, 3] : List Nat) ∧
    (∀ l ∈ ([3] : List Nat), l ∈ ([2, 3] : List Nat)) ∧
    simplifyClause [3] [2, 3] = some (some 2, [3]) := by
  refine ⟨?_, ?_, ?_, ?_⟩ <;> decide

/-- C2 (amended): restricted to sorted clauses in which no variable occurs
in both polarities (as holds for all clauses kept by the presolver),
`SimplifyClause(a, b, opposite_literal)` reports subsumption (true with
opposite literal -1, `b` unchanged) iff every literal of `a` occurs in `b`;
it reports self-subsumption with opposite literal `y` iff `a` with the
literal `negate y` flipped to `y` is a subset of `b`; and in that case `y`
is removed from `b`. -/
theorem c2_simplifyClause (a b : List Nat)
    (ha : List.Sorted (· < ·) a) (hb : List.Sorted (· < ·) b)
    (hnta : ∀ w ∈ a, negate w ∉ a) (hntb : ∀ w ∈ b, negate w ∉ b) :
    (simplifyClause a b = some (none, b) ↔ ∀ l ∈ a, l ∈ b) ∧
    (∀ y, (∃ rest, simplifyClause a b = some (some y, rest)) ↔
      (negate y ∈ a ∧ ∀ t ∈ a, (if t = negate y then y else t) ∈ b)) ∧
    (∀ y rest, simplifyClause a b = some (some y, rest) → rest = b.erase y) := by
  refine ⟨⟨?_, ?_⟩, fun y => ⟨?_, ?_⟩, ?_⟩
  · intro h
    unfold simplifyClause at h
    cases hscan : simplifyScan a b none with
    | none => rw [hscan] at h; cases h
    | some o =>
        cases o with
        | none => exact (simplifyScan_none_sound hscan).2
        | some y => rw [hscan] at h; simp at h
  · intro hsub
    unfold simplifyClause
    rw [simplifyScan_of_subset none ha hb hntb hsub]
  · rintro ⟨rest, h⟩
    unfold simplifyClause at h
    cases hscan : simplifyScan a b none with
    | none => rw [hscan] at h; cases h
    | some o =>
        cases o with
        | none => rw [hscan] at h; simp at h
        | some z =>
            rw [hscan] at h
            simp only [Option.some.injEq, Prod.mk.injEq] at h
            obtain ⟨hz, hr⟩ := h
            subst hz
            rcases simplifyScan_flip_sound hscan with ⟨ho, _⟩ | ⟨_, hm, himg⟩
            · cases ho
            · exact ⟨hm, himg⟩
  · rintro ⟨hm, himg⟩
    refine ⟨b.erase y, ?_⟩
    unfold simplifyClause
    rw [simplifyScan_of_flip ha hb hnta hntb hm himg]
  · intro y rest h
    unfold simplifyClause at h
    cases hscan : simplifyScan a b none with
    | none => rw [hscan] at h; cases h
    | some o =>
        cases o with
        | none => rw [hscan] at h; simp at h
        | some z =>
            rw [hscan] at h
            simp only [Option.some.injEq, Prod.mk.injEq] at h
            obtain ⟨hz, hr⟩ := h
            subst hz
            exact hr.symm

theorem c2_simplifyClause_witness :
    simplifyClause [0, 2] [0, 2, 4] = some (none, [0, 2, 4]) :=
  (c2_simplifyClause [0, 2] [0, 2, 4] (by decide) (by decide)
    (by decide) (by decide)).1.mpr (by decide)

/-! ### The postsolver -/

/-- A partial assignment maps a variable to `some` value or `none` (unset). -/
def pLitTrue (M : Nat → Option Bool) (l : Nat) : Bool := M (litVar l) == some (pol l)

/-- Modelled from the spec: one replay step of `SatPostsolver::Postsolve`
(`sat/simplification.h`; the .cc implementation is not in the sources).
Replaying a stored `Add(x, clause)` directive is a no-op when some literal
of the clause is already true; otherwise it sets the literal `x` to true
(spec 4.5: a directive is interpreted only if needed). -/
def applyDir (M : Nat → Option Bool) (d : Nat × List Nat) : Nat → Option Bool :=
  if d.2.any (fun l => pLitTrue M l) then M
  else fun v => if v = litVar d.1 then some (pol d.1) else M v

/-- Modelled from the spec: `SatPostsolver::Postsolve` replays the `Add`
directives in reverse append order (the last `foldr` argument is processed
first). -/
def applyLog (log : List (Nat × List Nat)) (M : Nat → Option Bool) :
    Nat → Option Bool :=
  log.foldr (fun d m => applyDir m d) M

/-- The postsolver state: the original number of variables, the stored
`Add(x, clause)` directives in append order, the running reverse variable
mapping (current variable index to original variable index), and the
assignment holding the fixed variables (`SatPostsolver::assignment_`),
in original numbering. -/
structure Postsolver where
  numVars : Nat
  log : List (Nat × List Nat)
  reverseMapping : List Nat
  assignment : Nat → Option Bool

/-- `SatPostsolver(num_variables)`: empty log, identity reverse mapping,
nothing fixed. -/
def initPostsolver (n : Nat) : Postsolver :=
  ⟨n, [], List.range n, fun _ => none⟩

/-- Modelled from the spec: `SatPostsolver::ApplyReverseMapping` translates a
literal of the current problem back to the original variable numbering. -/
def applyReverseMapping (p : Postsolver) (l : Nat) : Nat :=
  2 * p.reverseMapping.getD (litVar l) 0 + l % 2

/-- Modelled from the spec: `SatPostsolver::Add(x, clause)` with its
contract already established by the caller.  Per the header comment on
`reverse_mapping_`, the stored clauses and associated literals are kept
purely in terms of the initial problem, so the reverse mapping is applied
to every literal at append time. -/
def psAddU (p : Postsolver) (x : Nat) (c : List Nat) : Postsolver :=
  { p with log := p.log ++
      [(applyReverseMapping p x, c.map (applyReverseMapping p))] }

/-- Modelled from the spec: the public `SatPostsolver::Add(x, clause)`,
whose contract requires `x` to be a literal of `clause`; violating the
contract is a fatal check failure, embedded here as `none`. -/
def psAdd (p : Postsolver) (x : Nat) (c : List Nat) : Option Postsolver :=
  if x ∈ c then some (psAddU p x c) else none

/-- Modelled from the spec: the effect of `SatPostsolver::FixVariable(x)`:
record that literal `x` (translated to the original numbering) is true in
any solution. -/
def psFixU (p : Postsolver) (x : Nat) : Postsolver :=
  { p with assignment := fun v =>
      if v = litVar (applyReverseMapping p x)
      then some (pol (applyReverseMapping p x)) else p.assignment v }

/-- Modelled from the spec: the public `SatPostsolver::FixVariable(x)`,
which checks that the variable is not already fixed; a violated check is a
fatal failure, embedded here as `none`. -/
def psFix (p : Postsolver) (x : Nat) : Option Postsolver :=
  if p.assignment (litVar (applyReverseMapping p x)) = none
  then some (psFixU p x) else none

/-- Position of the first occurrence of `u` in a list. -/
def findPre : List Nat → Nat → Option Nat
  | [], _ => none
  | r :: rs, u => if r = u then some 0 else (findPre rs u).map (· + 1)

/-- Position of the first entry mapping to image `i` in a variable mapping
(`none` entries are deleted variables). -/
def findImage : List (Option Nat) → Nat → Option Nat
  | [], _ => none
  | o :: os, i => if o = some i then some 0 else (findImage os i).map (· + 1)

/-- Size of the image of a variable mapping. -/
def newSizeOfMapping (m : List (Option Nat)) : Nat :=
  m.foldr (fun o acc => match o with | some v => max (v + 1) acc | none => acc) 0

/-- Composition of the running reverse mapping with one more applied
mapping: the new reverse mapping sends an image index to the original
variable of its preimage. -/
def composeReverse (rev : List Nat) (m : List (Option Nat)) : List Nat :=
  (List.range (newSizeOfMapping m)).map (fun i =>
    match findImage m i with
    | some v => rev.getD v 0
    | none => 0)

/-- Modelled from the spec: `SatPostsolver::ApplyMapping(mapping)` composes
the given mapping (expressed on the current variable set, `none` meaning
deleted) with the running reverse mapping. -/
def psApplyMapping (p : Postsolver) (m : List (Option Nat)) : Postsolver :=
  { p with reverseMapping := composeReverse p.reverseMapping m }

/-- Modelled from the spec: the initial partial assignment built by
`SatPostsolver::PostsolveSolution`: each variable of the presolved problem
is assigned from the given solution through the reverse mapping, on top of
the fixed-variable assignment. -/
def solutionAssign (p : Postsolver) (A : Nat → Bool) : Nat → Option Bool :=
  fun u =>
    match findPre p.reverseMapping u with
    | some v => some (A v)
    | none => p.assignment u

/-- Modelled from the spec: `SatPostsolver::PostsolveSolution(solution)`
replays the directive log in reverse append order on the initial partial
assignment and extracts a total assignment over the original variables
(unset variables default to false). -/
def postsolveSolution (p : Postsolver) (A : Nat → Bool) : List Bool :=
  (List.range p.numVars).map
    (fun v => (applyLog p.log (solutionAssign p A) v).getD false)

/-- C8 as stated fails: directives are not stored verbatim.  After
`ApplyMapping` with mapping sending variable 1 to 0 and deleting variable
0, the call `Add(0, [0])` (literal 0 of the new numbering) stores the
directive `(2, [2])`: its literals are translated through the running
reverse mapping at append time, not at reconstruction time. -/
theorem c8_counterexample :
    (psAdd (psApplyMapping (initPostsolver 2) [none, some 0]) 0 [0]).map
      Postsolver.log = some [(2, [2])] ∧
    ((2 : Nat), [(2 : Nat)]) ≠ ((0 : Nat), [(0 : Nat)]) := by
  exact ⟨rfl, by decide⟩

/-- C8 (amended): `Add(x, clause)` requires `x` to be a literal of `clause`,
and stores the directive with every literal already translated through the
running reverse mapping composed by the `ApplyMapping` calls, so the log is
always expressed in the original variable numbering and replay applies no
further translation. -/
theorem c8_add_directive (p : Postsolver) (x : Nat) (c : List Nat) :
    ((psAdd p x c).isSome ↔ x ∈ c) ∧
    (∀ p2, psAdd p x c = some p2 →
      p2.log = p.log ++
        [(applyReverseMapping p x, c.map (applyReverseMapping p))]) := by
  unfold psAdd
  constructor
  · by_cases hx : x ∈ c
    · simp [hx]
    · simp [hx]
  · intro p2 h
    by_cases hx : x ∈ c
    · rw [if_pos hx] at h
      cases h
      rfl
    · rw [if_neg hx] at h
      cases h

theorem c8_add_directive_witness :
    (psAdd (initPostsolver 2) 2 [2]).isSome ∧
    (psAddU (initPostsolver 2) 2 [2]).log =
      (initPostsolver 2).log ++
        [(applyReverseMapping (initPostsolver 2) 2,
          [2].map (applyReverseMapping (initPostsolver 2)))] :=
  ⟨(c8_add_directive (initPostsolver 2) 2 [2]).1.mpr (by decide),
   (c8_add_directive (initPostsolver 2) 2 [2]).2 _ rfl⟩

/-- C9: `FixVariable(x)` fails its check exactly when the variable of `x`
(translated through the reverse mapping) is already fixed in the running
assignment; under the precondition that the variable is unfixed, the
failure branch is unreachable and the fix is recorded. -/
theorem c9_fixVariable (p : Postsolver) (x : Nat) :
    (psFix p x = none ↔
      ∃ b, p.assignment (litVar (applyReverseMapping p x)) = some b) ∧
    (p.assignment (litVar (applyReverseMapping p x)) = none →
      psFix p x = some (psFixU p x)) := by
  unfold psFix
  constructor
  · constructor
    · intro hn
      by_cases h : p.assignment (litVar (applyReverseMapping p x)) = none
      · rw [if_pos h] at hn; cases hn
      · cases ho : p.assignment (litVar (applyReverseMapping p x)) with
        | none => exact absurd ho h
        | some b => exact ⟨b, rfl⟩
    · rintro ⟨b, hb⟩
      have h : ¬(p.assignment (litVar (applyReverseMapping p x)) = none) := by
        rw [hb]; simp
      rw [if_neg h]
  · intro h
    rw [if_pos h]

theorem c9_fixVariable_witness :
    psFix (initPostsolver 2) 1 = some (psFixU (initPostsolver 2) 1) :=
  (c9_fixVariable (initPostsolver 2) 1).2 rfl

/-- C10 as stated fails: replaying the directive `Add(0, [0])` on the empty
assignment sets literal 0 to true although literal 0 is unassigned there,
not false.  The replay fires when no literal of the clause is true, which
includes unassigned literals. -/
theorem c10_counterexample :
    applyLog [(0, [0])] (fun _ => none) 0 = some true ∧
    (fun _ => (none : Option Bool)) 0 = none ∧
    pLitTrue (fun _ => none) (negate 0) = false := by
  exact ⟨rfl, rfl, rfl⟩

/-- C10 (amended): during replay, an `Add(x, clause)` directive sets the
literal `x` to true exactly when no literal of the clause is true at that
point of the reverse replay (each literal being false or unassigned), and
it changes no other variable; when some literal of the clause is already
true, replaying the directive leaves the assignment unchanged. -/
theorem c10_replayStep (M : Nat → Option Bool) (x : Nat) (c : List Nat) :
    ((∃ l ∈ c, pLitTrue M l = true) → applyDir M (x, c) = M) ∧
    ((∀ l ∈ c, pLitTrue M l = false) →
      applyDir M (x, c) (litVar x) = some (pol x) ∧
      ∀ v, v ≠ litVar x → applyDir M (x, c) v = M v) := by
  constructor
  · rintro ⟨l, hl, ht⟩
    unfold applyDir
    rw [if_pos (List.any_eq_true.mpr ⟨l, hl, ht⟩)]
  · intro hall
    have hfalse : ¬(c.any (fun l => pLitTrue M l) = true) := by
      rw [List.any_eq_true]
      rintro ⟨l, hl, ht⟩
      rw [hall l hl] at ht
      cases ht
    unfold applyDir
    rw [if_neg hfalse]
    exact ⟨by rw [if_pos rfl], fun v hv => by rw [if_neg hv]⟩

theorem c10_replayStep_witness :
    applyDir (fun _ => some true) (3, [0]) = (fun _ => some true) :=
  (c10_replayStep (fun _ => some true) 3 [0]).1 ⟨0, by decide, rfl⟩

/-! ### The presolver clause database -/

/-- Sort and deduplicate a clause. -/
def sortDedup (c : List Nat) : List Nat := c.foldr insertLit []

theorem mem_sortDedup {l : Nat} {c : List Nat} :
    l ∈ sortDedup c ↔ l ∈ c := by
  induction c with
  | nil => simp [sortDedup]
  | cons x xs ih =>
      show l ∈ insertLit x (sortDedup xs) ↔ _
      rw [mem_insertLit, ih]
      simp [List.mem_cons]

theorem sorted_sortDedup (c : List Nat) :
    List.Sorted (· < ·) (sortDedup c) := by
  induction c with
  | nil => simp [sortDedup]
  | cons x xs ih => exact sorted_insertLit ih

/-- A clause is trivially satisfied when it contains a literal and its
negation. -/
def isTrivialClause (c : List Nat) : Bool :=
  c.any (fun l => decide (negate l ∈ c))

theorem isTrivialClause_iff {c : List Nat} :
    isTrivialClause c = true ↔ ∃ l ∈ c, negate l ∈ c := by
  unfold isTrivialClause
  rw [List.any_eq_true]
  constructor
  · rintro ⟨l, hl, ht⟩
    exact ⟨l, hl, of_decide_eq_true ht⟩
  · rintro ⟨l, hl, ht⟩
    exact ⟨l, hl, decide_eq_true ht⟩

/-- The presolver state: the clause database (`none` is a removed clause,
kept as a tombstone so that clause indices stay stable), the attached
postsolver, and the count of trivially-satisfied clauses that were
rejected. -/
structure PState where
  clauses : List (Option (List Nat))
  post : Postsolver
  numTrivial : Nat

/-- Modelled from the spec: `SatPresolver::AddClause` (spec 4.1): a clause
containing a literal and its negation is trivially satisfied and only
counted (`num_trivial_clauses_`), leaving the database unchanged; any other
clause is stored sorted with repeated literals deduplicated. -/
def addClause (st : PState) (c : List Nat) : PState :=
  if isTrivialClause c then { st with numTrivial := st.numTrivial + 1 }
  else { st with clauses := st.clauses ++ [some (sortDedup c)] }

/-- Loading a problem: a presolver over `n` variables fed the clause set
`S` through `AddClause`. -/
def initState (n : Nat) (S : List (List Nat)) : PState :=
  S.foldl addClause ⟨[], initPostsolver n, 0⟩

/-- C7: `AddClause` rejects (counts, does not store) any clause containing
both a literal and its negation, leaving the clause database and the
postsolver unchanged; every other clause is stored with repeated literals
deduplicated (sorted, duplicate-free, with exactly the literals of the
input). -/
theorem c7_addClause (st : PState) (c : List Nat) :
    ((∃ l ∈ c, negate l ∈ c) →
      (addClause st c).clauses = st.clauses ∧
      (addClause st c).post = st.post ∧
      (addClause st c).numTrivial = st.numTrivial + 1) ∧
    ((∀ l ∈ c, negate l ∉ c) →
      (addClause st c).clauses = st.clauses ++ [some (sortDedup c)] ∧
      (addClause st c).post = st.post ∧
      (addClause st c).numTrivial = st.numTrivial ∧
      List.Sorted (· < ·) (sortDedup c) ∧ (sortDedup c).Nodup ∧
      (∀ l, l ∈ sortDedup c ↔ l ∈ c)) := by
  constructor
  · intro h
    have ht : isTrivialClause c = true := isTrivialClause_iff.mpr h
    unfold addClause
    rw [if_pos ht]
    exact ⟨rfl, rfl, rfl⟩
  · intro h
    have ht : ¬(isTrivialClause c = true) := by
      rw [isTrivialClause_iff]
      rintro ⟨l, hl, hnl⟩
      exact h l hl hnl
    unfold addClause
    rw [if_neg ht]
    exact ⟨rfl, rfl, rfl, sorted_sortDedup c,
      sorted_nodup (sorted_sortDedup c), fun l => mem_sortDedup⟩

theorem c7_addClause_witness :
    (addClause (initState 2 []) [0, 1]).clauses = (initState 2 []).clauses ∧
    (addClause (initState 2 []) [2, 0, 2]).clauses
      = (initState 2 []).clauses ++ [some [0, 2]] :=
  ⟨((c7_addClause (initState 2 []) [0, 1]).1 ⟨0, by decide, by decide⟩).1,
   ((c7_addClause (initState 2 []) [2, 0, 2]).2 (by decide)).1⟩

/-! ### Presolver operations -/

/-- Satisfaction of one database slot under a partial assignment: removed
clauses (tombstones) hold vacuously. -/
def clauseSatP (M : Nat → Option Bool) : Option (List Nat) → Bool
  | none => true
  | some cl => cl.any (fun l => pLitTrue M l)

/-- Every live clause of the database is satisfied by `M`. -/
def satLive (st : PState) (M : Nat → Option Bool) : Prop :=
  ∀ k, k < st.clauses.length → clauseSatP M (st.clauses.getD k none) = true

/-- Total assignments as partial assignments. -/
def toPA (A : Nat → Bool) : Nat → Option Bool := fun v => some (A v)

/-- Tombstone every clause containing `x` or `negate x`. -/
def killClause (x : Nat) : Option (List Nat) → Option (List Nat)
  | some cl => if x ∈ cl ∨ negate x ∈ cl then none else some cl
  | none => none

/-- Keep a clause only when it is live and contains `x`. -/
def liveFilter (x : Nat) : Option (List Nat) → Option (List Nat)
  | some cl => if x ∈ cl then some cl else none
  | none => none

/-- The live clauses containing the literal `x`, in database order (the
occurrence list of `x`, spec 3: iterating the occurrence list and skipping
empty clauses yields exactly the live clauses containing the literal). -/
def livesWith (st : PState) (x : Nat) : List (List Nat) :=
  st.clauses.filterMap (liveFilter x)

/-- All non-trivial resolvants of the clauses containing `x` with the
clauses containing `negate x`. -/
def resolvantsOf (st : PState) (x : Nat) : List (List Nat) :=
  (livesWith st x).flatMap
    (fun a => (livesWith st (negate x)).filterMap (fun b => computeResolvant x a b))

/-- Modelled from the spec: `SatPresolver::CrossProduct(x)` (header comment
and spec 4.4, step 3): eliminate `x` by clause distribution only when the
number of non-trivial resolvants is smaller than the number of clauses
containing `x` or `negate x`; in that case every such clause is removed and
registered with the postsolver (`Add(x, clause)` for the clauses containing
`x`, `Add(negate x, clause)` for the others) and the resolvants are added;
otherwise nothing changes and the first component is false. -/
def crossProduct (st : PState) (x : Nat) : Bool × PState :=
  if (resolvantsOf st x).length <
      (livesWith st x).length + (livesWith st (negate x)).length then
    (true,
      { clauses := st.clauses.map (killClause x) ++ (resolvantsOf st x).map some,
        post := (livesWith st (negate x)).foldl (fun p b => psAddU p (negate x) b)
          ((livesWith st x).foldl (fun p a => psAddU p x a) st.post),
        numTrivial := st.numTrivial })
  else (false, st)

/-- Modelled from the spec: the unit-propagation part of the driver (spec
4.4, step 2): fixing the literal `l` records it with the postsolver, then
removes every clause containing `l` (each registered for postsolve against
`l`) and deletes `negate l` from every clause containing it. -/
def fixClause (l : Nat) : Option (List Nat) → Option (List Nat)
  | some cl =>
      if l ∈ cl then none
      else if negate l ∈ cl then some (cl.erase (negate l)) else some cl
  | none => none

def fixLiteral (st : PState) (l : Nat) : PState :=
  { clauses := st.clauses.map (fixClause l),
    post := (livesWith st l).foldl (fun p c => psAddU p l c) (psFixU st.post l),
    numTrivial := st.numTrivial }

/-- `SatPresolver::Remove` through the subsumption path: the clause is
emptied in place (tombstoned), its identifier retained. -/
def removeAt (st : PState) (j : Nat) : PState :=
  { st with clauses := st.clauses.set j none }

/-- Strengthening: clause `j` is replaced by a strengthened version. -/
def strengthenAt (st : PState) (j : Nat) (c : List Nat) : PState :=
  { st with clauses := st.clauses.set j (some c) }

/-- Number of live (non-tombstoned) clauses. -/
def liveCount (st : PState) : Nat :=
  st.clauses.countP (fun oc => oc.isSome)

/-- Well-formedness of one database slot: live clauses are sorted,
duplicate-free by sortedness, contain no variable in both polarities, and
mention only variables below `n`. -/
def clauseInv (n : Nat) : Option (List Nat) → Bool
  | none => true
  | some cl => decide (List.Sorted (· < ·) cl) &&
      decide (∀ l ∈ cl, negate l ∉ cl) && decide (∀ l ∈ cl, l < 2 * n)

/-- Reachable-state invariant of the presolver: every live clause is
well-formed and the postsolver reverse mapping is still the identity (no
`ApplyMapping` is issued during presolving itself). -/
def InvState (st : PState) : Prop :=
  (∀ k, k < st.clauses.length →
    clauseInv st.post.numVars (st.clauses.getD k none) = true) ∧
  st.post.reverseMapping = List.range st.post.numVars

theorem clauseInv_elim {n : Nat} {cl : List Nat}
    (h : clauseInv n (some cl) = true) :
    List.Sorted (· < ·) cl ∧ (∀ l ∈ cl, negate l ∉ cl) ∧
    (∀ l ∈ cl, l < 2 * n) := by
  unfold clauseInv at h
  simp only [Bool.and_eq_true, decide_eq_true_eq] at h
  exact ⟨h.1.1, h.1.2, h.2⟩

theorem clauseInv_intro {n : Nat} {cl : List Nat}
    (h1 : List.Sorted (· < ·) cl) (h2 : ∀ l ∈ cl, negate l ∉ cl)
    (h3 : ∀ l ∈ cl, l < 2 * n) : clauseInv n (some cl) = true := by
  unfold clauseInv
  simp only [Bool.and_eq_true, decide_eq_true_eq]
  exact ⟨⟨h1, h2⟩, h3⟩

theorem getD_of_mem {L : List (Option (List Nat))} {cl : List Nat}
    (h : some cl ∈ L) : ∃ k, k < L.length ∧ L.getD k none = some cl := by
  obtain ⟨k, hk, hget⟩ := List.mem_iff_getElem.mp h
  refine ⟨k, hk, ?_⟩
  rw [List.getD_eq_getElem?_getD, List.getElem?_eq_getElem hk, hget]
  rfl

theorem inv_of_mem {st : PState} (hinv : InvState st) {cl : List Nat}
    (hm : some cl ∈ st.clauses) :
    List.Sorted (· < ·) cl ∧ (∀ l ∈ cl, negate l ∉ cl) ∧
    (∀ l ∈ cl, l < 2 * st.post.numVars) := by
  obtain ⟨k, hk, hget⟩ := getD_of_mem hm
  have h := hinv.1 k hk
  rw [hget] at h
  exact clauseInv_elim h

theorem satLive_mem {st : PState} {M : Nat → Option Bool} {cl : List Nat}
    (hs : satLive st M) (hm : some cl ∈ st.clauses) :
    cl.any (fun l => pLitTrue M l) = true := by
  obtain ⟨k, hk, hget⟩ := getD_of_mem hm
  have h := hs k hk
  rw [hget] at h
  exact h

theorem mem_livesWith {st : PState} {x : Nat} {cl : List Nat} :
    cl ∈ livesWith st x ↔ some cl ∈ st.clauses ∧ x ∈ cl := by
  unfold livesWith
  rw [List.mem_filterMap]
  constructor
  · rintro ⟨oc, hm, hf⟩
    cases oc with
    | none => cases hf
    | some cl2 =>
        simp only [liveFilter] at hf
        by_cases hx : x ∈ cl2
        · rw [if_pos hx] at hf
          cases hf
          exact ⟨hm, hx⟩
        · rw [if_neg hx] at hf
          cases hf
  · rintro ⟨hm, hx⟩
    refine ⟨some cl, hm, ?_⟩
    simp only [liveFilter]
    rw [if_pos hx]

/-- Counting the effect of tombstoning all clauses of a variable: the
killed database plus the two occurrence lists account exactly for the live
clauses. -/
theorem kill_count (x : Nat) :
    ∀ L : List (Option (List Nat)),
      (∀ cl, some cl ∈ L → ¬(x ∈ cl ∧ negate x ∈ cl)) →
      (L.map (killClause x)).countP (fun oc => oc.isSome)
        + (L.filterMap (liveFilter x)).length
        + (L.filterMap (liveFilter (negate x))).length
      = L.countP (fun oc => oc.isSome) := by
  intro L
  induction L with
  | nil => intro _; rfl
  | cons oc rest ih =>
      intro hnt
      have ih2 := ih (fun cl hm => hnt cl (List.mem_cons_of_mem _ hm))
      cases oc with
      | none =>
          simp only [List.map_cons, List.filterMap_cons, List.countP_cons,
            killClause, liveFilter, Option.isSome_none, Bool.false_eq_true,
            if_false]
          omega
      | some cl =>
          by_cases hx : x ∈ cl
          · have hnx : negate x ∉ cl :=
              fun h => hnt cl (List.mem_cons_self _ _) ⟨hx, h⟩
            simp only [List.map_cons, List.filterMap_cons, List.countP_cons,
              killClause, liveFilter, if_pos (Or.inl hx), if_pos hx,
              if_neg hnx, Option.isSome_none, Option.isSome_some,
              List.length_cons, Bool.false_eq_true, if_false, if_true]
            omega
          · by_cases hnx : negate x ∈ cl
            · simp only [List.map_cons, List.filterMap_cons, List.countP_cons,
                killClause, liveFilter, if_pos (Or.inr hnx), if_neg hx,
                if_pos hnx, Option.isSome_none, Option.isSome_some,
                List.length_cons, Bool.false_eq_true, if_false, if_true]
              omega
            · have hor : ¬(x ∈ cl ∨ negate x ∈ cl) := by tauto
              simp only [List.map_cons, List.filterMap_cons, List.countP_cons,
                killClause, liveFilter, if_neg hor, if_neg hx, if_neg hnx,
                Option.isSome_some, if_true]
              omega

theorem countP_map_some (res : List (List Nat)) :
    (res.map some).countP (fun oc => oc.isSome) = res.length := by
  induction res with
  | nil => rfl
  | cons r rest ih =>
      simp only [List.map_cons, List.countP_cons, Option.isSome_some,
        List.length_cons, if_true]
      omega

/-- C6: `CrossProduct(x)` performs the elimination only when it strictly
reduces the number of live clauses (the count of non-trivial resolvants is
compared against the count of clauses containing `x` or its negation); when
the count would not decrease, the state is returned unchanged. -/
theorem c6_crossProduct (st : PState) (x : Nat) (hinv : InvState st) :
    ((crossProduct st x).1 = true →
      liveCount (crossProduct st x).2 < liveCount st) ∧
    ((crossProduct st x).1 = false → (crossProduct st x).2 = st) := by
  have hnt : ∀ cl, some cl ∈ st.clauses → ¬(x ∈ cl ∧ negate x ∈ cl) := by
    intro cl hm h
    exact (inv_of_mem hinv hm).2.1 x h.1 h.2
  unfold crossProduct
  by_cases hc : (resolvantsOf st x).length <
      (livesWith st x).length + (livesWith st (negate x)).length
  · rw [if_pos hc]
    constructor
    · intro _
      unfold liveCount
      simp only
      rw [List.countP_append, countP_map_some]
      have hk := kill_count x st.clauses hnt
      unfold livesWith at hk hc
      omega
    · intro h
      cases h
  · rw [if_neg hc]
    exact ⟨fun h => absurd h Bool.false_ne_true, fun _ => rfl⟩

theorem mem_of_getD {L : List (Option (List Nat))} {k : Nat} {cl : List Nat}
    (h : L.getD k none = some cl) : some cl ∈ L := by
  rw [List.getD_eq_getElem?_getD] at h
  cases hk : L[k]? with
  | none => rw [hk] at h; cases h
  | some oc =>
      rw [hk] at h
      have hoc : oc = some cl := h
      obtain ⟨hlt, hgete⟩ := List.getElem?_eq_some.mp hk
      rw [← hoc, ← hgete]
      exact List.getElem_mem hlt

theorem satLive_iff_forall_mem {st : PState} {M : Nat → Option Bool} :
    satLive st M ↔
      ∀ cl, some cl ∈ st.clauses → cl.any (fun l => pLitTrue M l) = true := by
  constructor
  · intro hs cl hm
    exact satLive_mem hs hm
  · intro h k hk
    cases hoc : st.clauses.getD k none with
    | none => rfl
    | some cl => exact h cl (mem_of_getD hoc)

theorem mem_map_some {R : List (List Nat)} {cl : List Nat} :
    some cl ∈ R.map some ↔ cl ∈ R := by
  rw [List.mem_map]
  constructor
  · rintro ⟨r, hr, he⟩
    cases he
    exact hr
  · intro h
    exact ⟨cl, h, rfl⟩

theorem mem_killClause_map {st : PState} {x : Nat} {cl : List Nat}
    (h : some cl ∈ st.clauses.map (killClause x)) :
    some cl ∈ st.clauses ∧ x ∉ cl ∧ negate x ∉ cl := by
  rw [List.mem_map] at h
  obtain ⟨oc, hm, he⟩ := h
  cases oc with
  | none => cases he
  | some cl2 =>
      simp only [killClause] at he
      by_cases hk : x ∈ cl2 ∨ negate x ∈ cl2
      · rw [if_pos hk] at he; cases he
      · rw [if_neg hk] at he
        cases he
        push_neg at hk
        exact ⟨hm, hk.1, hk.2⟩

theorem killClause_mem_map {st : PState} {x : Nat} {cl : List Nat}
    (hm : some cl ∈ st.clauses) (h1 : x ∉ cl) (h2 : negate x ∉ cl) :
    some cl ∈ st.clauses.map (killClause x) := by
  rw [List.mem_map]
  refine ⟨some cl, hm, ?_⟩
  simp only [killClause]
  rw [if_neg (by tauto)]

theorem mem_resolvantsOf {st : PState} {x : Nat} {r : List Nat} :
    r ∈ resolvantsOf st x ↔
      ∃ a ∈ livesWith st x, ∃ b ∈ livesWith st (negate x),
        computeResolvant x a b = some r := by
  unfold resolvantsOf
  rw [List.mem_flatMap]
  constructor
  · rintro ⟨a, ha, hr⟩
    rw [List.mem_filterMap] at hr
    obtain ⟨b, hb, he⟩ := hr
    exact ⟨a, ha, b, hb, he⟩
  · rintro ⟨a, ha, b, hb, he⟩
    exact ⟨a, ha, List.mem_filterMap.mpr ⟨b, hb, he⟩⟩

/-! ### Elimination soundness (C5) -/

theorem pLitTrue_toPA_negate (A : Nat → Bool) (l : Nat) :
    pLitTrue (toPA A) (negate l) = !(pLitTrue (toPA A) l) := by
  unfold pLitTrue toPA
  rw [litVar_negate, pol_negate]
  cases A (litVar l) <;> cases pol l <;> rfl

theorem pLitTrue_total (A : Nat → Bool) (l : Nat) :
    pLitTrue (toPA A) l = true ∨ pLitTrue (toPA A) (negate l) = true := by
  rw [pLitTrue_toPA_negate]
  cases h : pLitTrue (toPA A) l
  · right; rfl
  · left; rfl

/-- The resolvant shape, unfolded. -/
theorem computeResolvant_eq (x : Nat) (a b : List Nat) :
    computeResolvant x a b =
      if hasOppositePair (mergeUnion (a.erase x) (b.erase (negate x)))
      then none else some (mergeUnion (a.erase x) (b.erase (negate x))) := rfl

theorem computeResolvant_some_eq {x : Nat} {a b out : List Nat}
    (h : computeResolvant x a b = some out) :
    out = mergeUnion (a.erase x) (b.erase (negate x)) := by
  rw [computeResolvant_eq] at h
  by_cases hop : hasOppositePair (mergeUnion (a.erase x) (b.erase (negate x))) = true
  · rw [if_pos hop] at h; cases h
  · rw [if_neg hop] at h; cases h; rfl

theorem computeResolvant_none_opp {x : Nat} {a b : List Nat}
    (h : computeResolvant x a b = none) :
    hasOppositePair (mergeUnion (a.erase x) (b.erase (negate x))) = true := by
  rw [computeResolvant_eq] at h
  by_cases hop : hasOppositePair (mergeUnion (a.erase x) (b.erase (negate x))) = true
  · exact hop
  · rw [if_neg hop] at h; cases h

/-- A non-trivial resolvant of two satisfied clauses is satisfied: the
standard resolution argument, under a total assignment. -/
theorem resolvant_sat {A : Nat → Bool} {x : Nat} {a b out : List Nat}
    (ha : List.Sorted (· < ·) a) (hb : List.Sorted (· < ·) b)
    (hntb : ∀ l ∈ b, negate l ∉ b)
    (hxb : negate x ∈ b)
    (hres : computeResolvant x a b = some out)
    (hsa : a.any (fun l => pLitTrue (toPA A) l) = true)
    (hsb : b.any (fun l => pLitTrue (toPA A) l) = true) :
    out.any (fun l => pLitTrue (toPA A) l) = true := by
  have hout := computeResolvant_some_eq hres
  obtain ⟨la, hla, hta⟩ := List.any_eq_true.mp hsa
  rw [List.any_eq_true]
  by_cases hlx : la = x
  · -- the true literal of a is x itself, so b is satisfied by a literal
    -- other than negate x
    obtain ⟨lb, hlb, htb⟩ := List.any_eq_true.mp hsb
    have hlbne : lb ≠ negate x := by
      intro he
      rw [he, ← hlx, pLitTrue_toPA_negate, hta] at htb
      cases htb
    have hlbnx : lb ≠ x := fun he => hntb x (he ▸ hlb) hxb
    refine ⟨lb, ?_, htb⟩
    rw [hout, mem_mergeUnion]
    right
    exact (mem_erase_sorted hb).mpr ⟨hlbne, hlb⟩
  · refine ⟨la, ?_, hta⟩
    rw [hout, mem_mergeUnion]
    left
    exact (mem_erase_sorted ha).mpr ⟨hlx, hla⟩

/-- Whether some clause containing `x` has all its other literals false:
in that case `x` itself must be made true when eliminating the variable. -/
def allOthersFalse (A : Nat → Bool) (x : Nat) (a : List Nat) : Bool :=
  a.all (fun l => (l == x) || !(pLitTrue (toPA A) l))

def needPos (A : Nat → Bool) (st : PState) (x : Nat) : Bool :=
  (livesWith st x).any (fun a => allOthersFalse A x a)

/-- Extension of an assignment on the variable of `x` after elimination. -/
def extendOn (A : Nat → Bool) (st : PState) (x : Nat) : Nat → Bool :=
  fun v => if v = litVar x
    then (if needPos A st x then pol x else !(pol x)) else A v

theorem allOthersFalse_false {A : Nat → Bool} {x : Nat} {cl : List Nat}
    (h : allOthersFalse A x cl = false) :
    ∃ l ∈ cl, l ≠ x ∧ pLitTrue (toPA A) l = true := by
  unfold allOthersFalse at h
  have h2 : ¬(cl.all (fun l => (l == x) || !(pLitTrue (toPA A) l)) = true) := by
    rw [h]; exact Bool.false_ne_true
  rw [List.all_eq_true] at h2
  push_neg at h2
  obtain ⟨l, hl, hf⟩ := h2
  have hf2 : ((l == x) || !(pLitTrue (toPA A) l)) = false :=
    Bool.not_eq_true _ |>.mp hf
  rw [Bool.or_eq_false_iff] at hf2
  obtain ⟨hfx, hft⟩ := hf2
  refine ⟨l, hl, ?_, ?_⟩
  · intro he
    rw [he] at hfx
    rw [beq_self_eq_true] at hfx
    cases hfx
  · cases hp : pLitTrue (toPA A) l with
    | true => rfl
    | false => rw [hp] at hft; cases hft

theorem allOthersFalse_true {A : Nat → Bool} {x : Nat} {cl : List Nat}
    (h : allOthersFalse A x cl = true) :
    ∀ l ∈ cl, l ≠ x → pLitTrue (toPA A) l = false := by
  unfold allOthersFalse at h
  rw [List.all_eq_true] at h
  intro l hl hne
  have h2 := h l hl
  rw [Bool.or_eq_true] at h2
  rcases h2 with h2 | h2
  · rw [beq_iff_eq] at h2
    exact absurd h2 hne
  · cases hp : pLitTrue (toPA A) l with
    | false => rfl
    | true => rw [hp] at h2; cases h2

theorem needPos_false_elim {A : Nat → Bool} {st : PState} {x : Nat}
    (h : needPos A st x = false) :
    ∀ a ∈ livesWith st x, allOthersFalse A x a = false := by
  unfold needPos at h
  intro a ha
  cases hall : allOthersFalse A x a with
  | false => rfl
  | true =>
      have h2 := List.any_eq_true.mpr ⟨a, ha, hall⟩
      rw [h] at h2
      cases h2

theorem pLitTrue_extendOn_ne {A : Nat → Bool} {st : PState} {x l : Nat}
    (h : litVar l ≠ litVar x) :
    pLitTrue (toPA (extendOn A st x)) l = pLitTrue (toPA A) l := by
  unfold pLitTrue toPA extendOn
  rw [if_neg h]

theorem pLitTrue_extendOn_x {A : Nat → Bool} {st : PState} {x : Nat}
    (h : needPos A st x = true) :
    pLitTrue (toPA (extendOn A st x)) x = true := by
  unfold pLitTrue toPA extendOn
  rw [if_pos rfl, if_pos h]
  exact beq_self_eq_true _

theorem pLitTrue_extendOn_negx {A : Nat → Bool} {st : PState} {x : Nat}
    (h : needPos A st x = false) :
    pLitTrue (toPA (extendOn A st x)) (negate x) = true := by
  unfold pLitTrue toPA extendOn
  rw [litVar_negate, if_pos rfl, pol_negate, h]
  simp only [Bool.false_eq_true, if_false]
  exact beq_self_eq_true _

/-- Variables of literals of a clause free of `x` and `negate x` differ from
the variable of `x`. -/
theorem litVar_ne_of_not_mem {cl : List Nat} {x l : Nat} (hl : l ∈ cl)
    (h1 : x ∉ cl) (h2 : negate x ∉ cl) : litVar l ≠ litVar x := by
  intro he
  rcases litVar_eq_cases he with h | h
  · exact h1 (h ▸ hl)
  · exact h2 (h ▸ hl)

/-- C5: whenever `CrossProduct(x)` performs the elimination of `x`, the
resulting clause set is satisfiable if and only if the clause set before
the elimination was satisfiable. -/
theorem c5_crossProduct (st : PState) (x : Nat) (hinv : InvState st)
    (hperf : (crossProduct st x).1 = true) :
    (∃ A : Nat → Bool, satLive (crossProduct st x).2 (toPA A)) ↔
    (∃ A : Nat → Bool, satLive st (toPA A)) := by
  have hcond : (resolvantsOf st x).length <
      (livesWith st x).length + (livesWith st (negate x)).length := by
    by_contra hcond
    unfold crossProduct at hperf
    rw [if_neg hcond] at hperf
    exact Bool.false_ne_true hperf
  have hcp : (crossProduct st x).2 =
      { clauses := st.clauses.map (killClause x) ++ (resolvantsOf st x).map some,
        post := (livesWith st (negate x)).foldl (fun p b => psAddU p (negate x) b)
          ((livesWith st x).foldl (fun p a => psAddU p x a) st.post),
        numTrivial := st.numTrivial } := by
    unfold crossProduct
    rw [if_pos hcond]
  rw [hcp]
  constructor
  · -- a solution of the new set extends to a solution of the old set
    rintro ⟨A, hsat⟩
    rw [satLive_iff_forall_mem] at hsat
    refine ⟨extendOn A st x, ?_⟩
    rw [satLive_iff_forall_mem]
    intro cl hm
    obtain ⟨hscl, hntcl, _⟩ := inv_of_mem hinv hm
    by_cases hx : x ∈ cl
    · -- a clause of the occurrence list of x
      rw [List.any_eq_true]
      cases hneed : needPos A st x with
      | true => exact ⟨x, hx, pLitTrue_extendOn_x hneed⟩
      | false =>
          have hcl : cl ∈ livesWith st x := mem_livesWith.mpr ⟨hm, hx⟩
          obtain ⟨l, hl, hlx, hlt⟩ :=
            allOthersFalse_false (needPos_false_elim hneed cl hcl)
          have hvar : litVar l ≠ litVar x := by
            intro he
            rcases litVar_eq_cases he with h | h
            · exact hlx h
            · exact hntcl x hx (by rw [← h]; exact hl)
          exact ⟨l, hl, by rw [pLitTrue_extendOn_ne hvar]; exact hlt⟩
    · by_cases hnx : negate x ∈ cl
      · -- a clause of the occurrence list of negate x
        rw [List.any_eq_true]
        cases hneed : needPos A st x with
        | false => exact ⟨negate x, hnx, pLitTrue_extendOn_negx hneed⟩
        | true =>
            obtain ⟨a0, ha0, hall⟩ := List.any_eq_true.mp hneed
            obtain ⟨ha0mem, hxa0⟩ := mem_livesWith.mp ha0
            obtain ⟨hsa0, hnta0, _⟩ := inv_of_mem hinv ha0mem
            have hclw : cl ∈ livesWith st (negate x) := mem_livesWith.mpr ⟨hm, hnx⟩
            cases hres : computeResolvant x a0 cl with
            | some out =>
                have houtmem : out ∈ resolvantsOf st x :=
                  mem_resolvantsOf.mpr ⟨a0, ha0, cl, hclw, hres⟩
                have hout_any := hsat out (List.mem_append.mpr
                  (Or.inr (mem_map_some.mpr houtmem)))
                obtain ⟨y, hy, hyt⟩ := List.any_eq_true.mp hout_any
                rw [computeResolvant_some_eq hres, mem_mergeUnion] at hy
                rcases hy with hy | hy
                · obtain ⟨hyne, hya0⟩ := (mem_erase_sorted hsa0).mp hy
                  rw [allOthersFalse_true hall y hya0 hyne] at hyt
                  cases hyt
                · obtain ⟨hyne, hycl⟩ := (mem_erase_sorted hscl).mp hy
                  have hyx : y ≠ x := fun he => hx (he ▸ hycl)
                  have hvar : litVar y ≠ litVar x := by
                    intro he
                    rcases litVar_eq_cases he with h | h
                    · exact hyx h
                    · exact hyne h
                  exact ⟨y, hycl, by rw [pLitTrue_extendOn_ne hvar]; exact hyt⟩
            | none =>
                obtain ⟨z, hz, hnz⟩ :=
                  hasOppositePair_sound (computeResolvant_none_opp hres)
                have hw : ∃ w, w ∈ mergeUnion (a0.erase x) (cl.erase (negate x)) ∧
                    pLitTrue (toPA A) w = true := by
                  rcases pLitTrue_total A z with ht | ht
                  · exact ⟨z, hz, ht⟩
                  · exact ⟨negate z, hnz, ht⟩
                obtain ⟨w, hwmem, hwt⟩ := hw
                rw [mem_mergeUnion] at hwmem
                rcases hwmem with hwm | hwm
                · obtain ⟨hwne, hwa0⟩ := (mem_erase_sorted hsa0).mp hwm
                  rw [allOthersFalse_true hall w hwa0 hwne] at hwt
                  cases hwt
                · obtain ⟨hwne, hwcl⟩ := (mem_erase_sorted hscl).mp hwm
                  have hwx : w ≠ x := fun he => hx (he ▸ hwcl)
                  have hvar : litVar w ≠ litVar x := by
                    intro he
                    rcases litVar_eq_cases he with h | h
                    · exact hwx h
                    · exact hwne h
                  exact ⟨w, hwcl, by rw [pLitTrue_extendOn_ne hvar]; exact hwt⟩
      · -- an untouched clause: its literals avoid the variable of x
        have hsat2 := hsat cl (List.mem_append.mpr
          (Or.inl (killClause_mem_map hm hx hnx)))
        obtain ⟨y, hy, hyt⟩ := List.any_eq_true.mp hsat2
        rw [List.any_eq_true]
        refine ⟨y, hy, ?_⟩
        rw [pLitTrue_extendOn_ne (litVar_ne_of_not_mem hy hx hnx)]
        exact hyt
  · -- a solution of the old set satisfies the new set as it stands
    rintro ⟨A, hsat⟩
    rw [satLive_iff_forall_mem] at hsat
    refine ⟨A, ?_⟩
    rw [satLive_iff_forall_mem]
    intro cl hm
    rcases List.mem_append.mp hm with hm | hm
    · exact hsat cl (mem_killClause_map hm).1
    · rw [mem_map_some] at hm
      obtain ⟨a, ha, b, hb, hres⟩ := mem_resolvantsOf.mp hm
      obtain ⟨hamem, hxa⟩ := mem_livesWith.mp ha
      obtain ⟨hbmem, hxb⟩ := mem_livesWith.mp hb
      obtain ⟨hsa, _, _⟩ := inv_of_mem hinv hamem
      obtain ⟨hsb, hntb, _⟩ := inv_of_mem hinv hbmem
      exact resolvant_sat hsa hsb hntb hxb hres
        (hsat a hamem) (hsat b hbmem)

/-- A two-clause database used to instantiate the elimination theorems. -/
def exampleSt : PState :=
  { clauses := [some [0, 2], some [1, 4]],
    post := initPostsolver 3, numTrivial := 0 }

theorem c5_crossProduct_witness :
    (∃ A : Nat → Bool, satLive (crossProduct exampleSt 0).2 (toPA A)) ↔
    (∃ A : Nat → Bool, satLive exampleSt (toPA A)) :=
  c5_crossProduct exampleSt 0 (by unfold InvState; decide) (by decide)

theorem c6_crossProduct_witness :
    liveCount (crossProduct exampleSt 0).2 < liveCount exampleSt :=
  (c6_crossProduct exampleSt 0 (by unfold InvState; decide)).1 (by decide)

/-! ### Replay lemmas for the directive log -/

/-- Set the variable of a literal so that the literal becomes true. -/
def updLit (M : Nat → Option Bool) (l : Nat) : Nat → Option Bool :=
  fun v => if v = litVar l then some (pol l) else M v

theorem pLitTrue_updLit_self (M : Nat → Option Bool) (l : Nat) :
    pLitTrue (updLit M l) l = true := by
  unfold pLitTrue updLit
  rw [if_pos rfl]
  exact beq_self_eq_true _

theorem applyDir_skip {M : Nat → Option Bool} {d : Nat × List Nat}
    (h : d.2.any (fun l => pLitTrue M l) = true) : applyDir M d = M := by
  unfold applyDir
  rw [if_pos h]

theorem applyDir_fire {M : Nat → Option Bool} {d : Nat × List Nat}
    (h : d.2.any (fun l => pLitTrue M l) = false) :
    applyDir M d = updLit M d.1 := by
  unfold applyDir updLit
  rw [if_neg (by rw [h]; exact Bool.false_ne_true)]

theorem applyDir_ne {M : Nat → Option Bool} {d : Nat × List Nat} {v : Nat}
    (h : v ≠ litVar d.1) : applyDir M d v = M v := by
  by_cases hany : (d.2.any fun l => pLitTrue M l) = true
  · rw [applyDir_skip hany]
  · rw [applyDir_fire (Bool.not_eq_true _ |>.mp hany)]
    unfold updLit
    rw [if_neg h]

theorem applyLog_append (L1 L2 : List (Nat × List Nat)) (M : Nat → Option Bool) :
    applyLog (L1 ++ L2) M = applyLog L1 (applyLog L2 M) := by
  unfold applyLog
  rw [List.foldr_append]

/-- Replay of a block of directives sharing one associated literal: either
nothing fires (each directive clause was already true) or the literal is
set true (and some directive clause had no true literal). -/
theorem applyLog_common {l : Nat} {Δ : List (Nat × List Nat)}
    (hΔ : ∀ d ∈ Δ, d.1 = l ∧ l ∈ d.2) (M : Nat → Option Bool) :
    (applyLog Δ M = M ∧ ∀ d ∈ Δ, d.2.any (fun t => pLitTrue M t) = true) ∨
    (applyLog Δ M = updLit M l ∧
      ∃ d ∈ Δ, d.2.any (fun t => pLitTrue M t) = false) := by
  induction Δ with
  | nil => exact Or.inl ⟨rfl, by simp⟩
  | cons d Δ2 ih =>
      have hd := hΔ d (List.mem_cons_self d Δ2)
      have ih2 := ih (fun d2 hm => hΔ d2 (List.mem_cons_of_mem _ hm))
      have hstep : applyLog (d :: Δ2) M = applyDir (applyLog Δ2 M) d := rfl
      rcases ih2 with ⟨heq, hall⟩ | ⟨heq, hex⟩
      · rw [hstep, heq]
        cases hany : d.2.any (fun t => pLitTrue M t) with
        | true =>
            left
            rw [applyDir_skip hany]
            refine ⟨rfl, ?_⟩
            intro d2 hm
            rcases List.mem_cons.mp hm with h1 | h1
            · rw [h1]; exact hany
            · exact hall d2 h1
        | false =>
            right
            rw [applyDir_fire hany, hd.1]
            exact ⟨rfl, d, List.mem_cons_self d Δ2, hany⟩
      · right
        rw [hstep, heq]
        have ht : d.2.any (fun t => pLitTrue (updLit M l) t) = true :=
          List.any_eq_true.mpr ⟨l, hd.2, pLitTrue_updLit_self M l⟩
        rw [applyDir_skip ht]
        obtain ⟨d2, hm, he⟩ := hex
        exact ⟨rfl, d2, List.mem_cons_of_mem _ hm, he⟩

/-- Replaying directives whose associated literals all live on one variable
does not change any other variable. -/
theorem applyLog_frame {Δ : List (Nat × List Nat)} {w : Nat}
    (hΔ : ∀ d ∈ Δ, litVar d.1 = w) (M : Nat → Option Bool) (v : Nat)
    (hv : v ≠ w) : applyLog Δ M v = M v := by
  induction Δ with
  | nil => rfl
  | cons d Δ2 ih =>
      have hstep : applyLog (d :: Δ2) M = applyDir (applyLog Δ2 M) d := rfl
      rw [hstep, applyDir_ne (by rw [hΔ d (List.mem_cons_self d Δ2)]; exact hv)]
      exact ih (fun d2 hm => hΔ d2 (List.mem_cons_of_mem _ hm))

def totalBelow (M : Nat → Option Bool) (n : Nat) : Prop :=
  ∀ v, v < n → ∃ b, M v = some b

theorem totalBelow_applyDir {M : Nat → Option Bool} {d : Nat × List Nat}
    {n : Nat} (h : totalBelow M n) : totalBelow (applyDir M d) n := by
  intro v hv
  by_cases hany : (d.2.any fun l => pLitTrue M l) = true
  · rw [applyDir_skip hany]; exact h v hv
  · rw [applyDir_fire (Bool.not_eq_true _ |>.mp hany)]
    unfold updLit
    by_cases hvd : v = litVar d.1
    · exact ⟨pol d.1, by rw [if_pos hvd]⟩
    · rw [if_neg hvd]; exact h v hv

theorem totalBelow_applyLog {log : List (Nat × List Nat)}
    {M : Nat → Option Bool} {n : Nat} (h : totalBelow M n) :
    totalBelow (applyLog log M) n := by
  induction log with
  | nil => exact h
  | cons d rest ih => exact totalBelow_applyDir ih

theorem pLitTrue_total_of_totalBelow {M : Nat → Option Bool} {n l : Nat}
    (h : totalBelow M n) (hl : l < 2 * n) :
    pLitTrue M l = true ∨ pLitTrue M (negate l) = true := by
  obtain ⟨b, hb⟩ := h (litVar l) (by unfold litVar; omega)
  unfold pLitTrue
  rw [litVar_negate, hb, pol_negate]
  cases b <;> cases hp : pol l <;> simp

theorem any_false_elim {c : List Nat} {f : Nat → Bool} (h : c.any f = false) :
    ∀ t ∈ c, f t = false := by
  intro t ht
  cases hf : f t with
  | false => rfl
  | true =>
      have := List.any_eq_true.mpr ⟨t, ht, hf⟩
      rw [h] at this
      cases this

/-! ### The postsolver bookkeeping of the presolver operations -/

theorem foldl_psAddU_spec (x : Nat) (cs : List (List Nat)) :
    ∀ p : Postsolver,
      (cs.foldl (fun q c => psAddU q x c) p).log =
        p.log ++ cs.map
          (fun c => (applyReverseMapping p x, c.map (applyReverseMapping p))) ∧
      (cs.foldl (fun q c => psAddU q x c) p).reverseMapping = p.reverseMapping ∧
      (cs.foldl (fun q c => psAddU q x c) p).assignment = p.assignment ∧
      (cs.foldl (fun q c => psAddU q x c) p).numVars = p.numVars := by
  induction cs with
  | nil => exact fun p => ⟨(List.append_nil _).symm, rfl, rfl, rfl⟩
  | cons c rest ih =>
      intro p
      obtain ⟨h1, h2, h3, h4⟩ := ih (psAddU p x c)
      have harm : applyReverseMapping (psAddU p x c) = applyReverseMapping p := rfl
      have hfold : (c :: rest).foldl (fun q c2 => psAddU q x c2) p
          = rest.foldl (fun q c2 => psAddU q x c2) (psAddU p x c) := rfl
      refine ⟨?_, by rw [hfold]; exact h2, by rw [hfold]; exact h3,
        by rw [hfold]; exact h4⟩
      rw [hfold, h1, harm]
      show (p.log ++ [(applyReverseMapping p x, c.map (applyReverseMapping p))])
          ++ _ = _
      rw [List.append_assoc]
      rfl

theorem range_getD {n v : Nat} (h : v < n) : (List.range n).getD v 0 = v := by
  rw [List.getD_eq_getElem?_getD, List.getElem?_range h]
  rfl

theorem arm_id {p : Postsolver} (hrev : p.reverseMapping = List.range p.numVars)
    {l : Nat} (hl : l < 2 * p.numVars) : applyReverseMapping p l = l := by
  unfold applyReverseMapping
  rw [hrev]
  have hv : litVar l < p.numVars := by unfold litVar at *; omega
  rw [range_getD hv]
  unfold litVar
  omega

theorem arm_map_id {p : Postsolver}
    (hrev : p.reverseMapping = List.range p.numVars) {c : List Nat}
    (hc : ∀ l ∈ c, l < 2 * p.numVars) : c.map (applyReverseMapping p) = c := by
  induction c with
  | nil => rfl
  | cons t rest ih =>
      rw [List.map_cons, arm_id hrev (hc t (List.mem_cons_self t rest)),
        ih (fun l hl => hc l (List.mem_cons_of_mem t hl))]

/-! ### Database index helpers -/

theorem getD_set_ne {L : List (Option (List Nat))} :
    ∀ {j k : Nat} {v : Option (List Nat)}, j ≠ k →
      (L.set j v).getD k none = L.getD k none := by
  induction L with
  | nil => intro j k v _; rfl
  | cons a rest ih =>
      intro j k v h
      cases j with
      | zero =>
          cases k with
          | zero => exact absurd rfl h
          | succ k2 => rfl
      | succ j2 =>
          cases k with
          | zero => rfl
          | succ k2 =>
              rw [List.set_cons_succ, List.getD_cons_succ, List.getD_cons_succ]
              exact ih (fun he => h (by rw [he]))

theorem getD_set_self {L : List (Option (List Nat))} :
    ∀ {j : Nat} {v : Option (List Nat)}, j < L.length →
      (L.set j v).getD j none = v := by
  induction L with
  | nil => intro j v h; cases h
  | cons a rest ih =>
      intro j v h
      cases j with
      | zero => rfl
      | succ j2 =>
          rw [List.set_cons_succ, List.getD_cons_succ]
          exact ih (by simpa using h)

theorem lt_length_of_getD {L : List (Option (List Nat))} {j : Nat}
    {cl : List Nat} (h : L.getD j none = some cl) : j < L.length := by
  by_contra hle
  rw [List.getD_eq_getElem?_getD, List.getElem?_eq_none (by omega)] at h
  cases h

theorem mem_set_or_eq {L : List (Option (List Nat))} :
    ∀ {j : Nat} {v oc : Option (List Nat)}, oc ∈ L →
      oc ∈ L.set j v ∨ oc = L.getD j none := by
  induction L with
  | nil => intro j v oc h; cases h
  | cons a rest ih =>
      intro j v oc h
      cases j with
      | zero =>
          rcases List.mem_cons.mp h with h1 | h1
          · right; rw [h1]; rfl
          · left
            rw [List.set_cons_zero]
            exact List.mem_cons_of_mem _ h1
      | succ j2 =>
          rcases List.mem_cons.mp h with h1 | h1
          · left
            rw [List.set_cons_succ, h1]
            exact List.mem_cons_self _ _
          · rcases ih (j := j2) (v := v) h1 with h2 | h2
            · left
              rw [List.set_cons_succ]
              exact List.mem_cons_of_mem _ h2
            · right
              rw [List.getD_cons_succ]
              exact h2

theorem forall_getD_iff_forall_mem {L : List (Option (List Nat))}
    {p : Option (List Nat) → Bool} (hp : p none = true) :
    (∀ k, k < L.length → p (L.getD k none) = true) ↔
      ∀ oc ∈ L, p oc = true := by
  constructor
  · intro h oc hm
    obtain ⟨k, hk, hget⟩ := List.mem_iff_getElem.mp hm
    have h2 := h k hk
    rw [List.getD_eq_getElem?_getD, List.getElem?_eq_getElem hk] at h2
    rw [← hget]
    exact h2
  · intro h k hk
    cases hoc : L.getD k none with
    | none => exact hp
    | some cl => exact h _ (mem_of_getD hoc)

theorem getD_map_fix {f : Option (List Nat) → Option (List Nat)}
    (hf : f none = none) {L : List (Option (List Nat))} {k : Nat}
    (hk : k < L.length) : (L.map f).getD k none = f (L.getD k none) := by
  rw [List.getD_eq_getElem?_getD, List.getD_eq_getElem?_getD,
    List.getElem?_map, List.getElem?_eq_getElem hk]
  rfl

theorem mem_set_cases {L : List (Option (List Nat))} :
    ∀ {j : Nat} {v oc : Option (List Nat)}, oc ∈ L.set j v →
      oc ∈ L ∨ oc = v := by
  induction L with
  | nil => intro j v oc h; rw [List.set_nil] at h; cases h
  | cons a rest ih =>
      intro j v oc h
      cases j with
      | zero =>
          rw [List.set_cons_zero] at h
          rcases List.mem_cons.mp h with h1 | h1
          · right; exact h1
          · left; exact List.mem_cons_of_mem _ h1
      | succ j2 =>
          rw [List.set_cons_succ] at h
          rcases List.mem_cons.mp h with h1 | h1
          · left; rw [h1]; exact List.mem_cons_self _ _
          · rcases ih h1 with h2 | h2
            · left; exact List.mem_cons_of_mem _ h2
            · right; exact h2

theorem computeResolvant_some_noOpp {x : Nat} {a b out : List Nat}
    (h : computeResolvant x a b = some out) : hasOppositePair out = false := by
  rw [computeResolvant_eq] at h
  by_cases hop : hasOppositePair (mergeUnion (a.erase x) (b.erase (negate x))) = true
  · rw [if_pos hop] at h; cases h
  · rw [if_neg hop] at h
    cases h
    exact Bool.not_eq_true _ |>.mp hop

/-! ### The presolve step relation (C1) -/

/-- Modelled from the spec: one presolve operation (spec 4.4).  The four
operations the driver performs on the clause database and the postsolver:
removal of a subsumed clause, self-subsumption strengthening, fixing the
literal of a unit clause, and bounded variable elimination by clause
distribution. -/
inductive Step : PState → PState → Prop where
  | subsume (st : PState) (i j : Nat) (a b : List Nat) :
      i ≠ j → st.clauses.getD i none = some a →
      st.clauses.getD j none = some b →
      (∀ l ∈ a, l ∈ b) → Step st (removeAt st j)
  | strengthen (st : PState) (i j : Nat) (a b : List Nat) (y : Nat) :
      i ≠ j → st.clauses.getD i none = some a →
      st.clauses.getD j none = some b →
      negate y ∈ a → (∀ t ∈ a, (if t = negate y then y else t) ∈ b) →
      Step st (strengthenAt st j (b.erase y))
  | fixUnit (st : PState) (i : Nat) (l : Nat) :
      st.clauses.getD i none = some [l] →
      st.post.assignment (litVar (applyReverseMapping st.post l)) = none →
      Step st (fixLiteral st l)
  | eliminate (st : PState) (x : Nat) :
      (crossProduct st x).1 = true → Step st (crossProduct st x).2

theorem invState_mem {st : PState} (hinv : InvState st) :
    ∀ oc ∈ st.clauses, clauseInv st.post.numVars oc = true :=
  (forall_getD_iff_forall_mem rfl).mp hinv.1

theorem invState_of_mem {st : PState} {newClauses : List (Option (List Nat))}
    {newPost : Postsolver} {nt : Nat}
    (hnum : newPost.numVars = st.post.numVars)
    (hrev : newPost.reverseMapping = st.post.reverseMapping)
    (hinv : InvState st)
    (h : ∀ oc ∈ newClauses, clauseInv st.post.numVars oc = true) :
    InvState { clauses := newClauses, post := newPost, numTrivial := nt } := by
  constructor
  · show ∀ k, k < newClauses.length → clauseInv newPost.numVars _ = true
    rw [hnum]
    exact (forall_getD_iff_forall_mem rfl).mpr h
  · show newPost.reverseMapping = List.range newPost.numVars
    rw [hnum, hrev]
    exact hinv.2

theorem erase_clauseInv {n : Nat} {cl : List Nat} (y : Nat)
    (h : clauseInv n (some cl) = true) :
    clauseInv n (some (cl.erase y)) = true := by
  obtain ⟨h1, h2, h3⟩ := clauseInv_elim h
  refine clauseInv_intro (sorted_erase h1 y) ?_ ?_
  · intro l hl hnl
    exact h2 l (List.mem_of_mem_erase hl) (List.mem_of_mem_erase hnl)
  · intro l hl
    exact h3 l (List.mem_of_mem_erase hl)

theorem step_inv {st st' : PState} (h : Step st st') (hinv : InvState st) :
    InvState st' := by
  cases h with
  | subsume i j a b hij hi hj hsub =>
      refine ⟨(forall_getD_iff_forall_mem rfl).mpr ?_, hinv.2⟩
      intro oc hm
      have hm2 : oc ∈ st.clauses.set j none := hm
      rcases mem_set_cases hm2 with h1 | h1
      · exact invState_mem hinv oc h1
      · rw [h1]; rfl
  | strengthen i j a b y hij hi hj hy himg =>
      refine ⟨(forall_getD_iff_forall_mem rfl).mpr ?_, hinv.2⟩
      intro oc hm
      have hm2 : oc ∈ st.clauses.set j (some (b.erase y)) := hm
      rcases mem_set_cases hm2 with h1 | h1
      · exact invState_mem hinv oc h1
      · rw [h1]
        exact erase_clauseInv y (invState_mem hinv _ (mem_of_getD hj))
  | fixUnit i l hunit hfix =>
      have hspec := foldl_psAddU_spec l (livesWith st l) (psFixU st.post l)
      apply invState_of_mem hspec.2.2.2 hspec.2.1 hinv
      intro oc hm
      rw [List.mem_map] at hm
      obtain ⟨oc0, hm0, he⟩ := hm
      cases oc0 with
      | none => rw [← he]; rfl
      | some cl =>
          simp only [fixClause] at he
          by_cases h1 : l ∈ cl
          · rw [if_pos h1] at he; rw [← he]; rfl
          · rw [if_neg h1] at he
            by_cases h2 : negate l ∈ cl
            · rw [if_pos h2] at he
              rw [← he]
              exact erase_clauseInv _ (invState_mem hinv _ hm0)
            · rw [if_neg h2] at he
              rw [← he]
              exact invState_mem hinv _ hm0
  | eliminate x hperf =>
      by_cases hc : (resolvantsOf st x).length <
          (livesWith st x).length + (livesWith st (negate x)).length
      · have hcp : (crossProduct st x).2 =
            { clauses := st.clauses.map (killClause x)
                ++ (resolvantsOf st x).map some,
              post := (livesWith st (negate x)).foldl
                (fun p b => psAddU p (negate x) b)
                ((livesWith st x).foldl (fun p a => psAddU p x a) st.post),
              numTrivial := st.numTrivial } := by
          unfold crossProduct
          rw [if_pos hc]
        rw [hcp]
        have hin := foldl_psAddU_spec x (livesWith st x) st.post
        have hout := foldl_psAddU_spec (negate x) (livesWith st (negate x))
          ((livesWith st x).foldl (fun p a => psAddU p x a) st.post)
        apply invState_of_mem (by rw [hout.2.2.2, hin.2.2.2])
          (by rw [hout.2.1, hin.2.1]) hinv
        intro oc hm
        rcases List.mem_append.mp hm with hm | hm
        · rw [List.mem_map] at hm
          obtain ⟨oc0, hm0, he⟩ := hm
          cases oc0 with
          | none => rw [← he]; rfl
          | some cl =>
              simp only [killClause] at he
              by_cases h1 : x ∈ cl ∨ negate x ∈ cl
              · rw [if_pos h1] at he; rw [← he]; rfl
              · rw [if_neg h1] at he
                rw [← he]
                exact invState_mem hinv _ hm0
        · rw [List.mem_map] at hm
          obtain ⟨r, hr, he⟩ := hm
          rw [← he]
          obtain ⟨a, ha, b, hb, hres⟩ := mem_resolvantsOf.mp hr
          obtain ⟨hamem, hxa⟩ := mem_livesWith.mp ha
          obtain ⟨hbmem, hxb⟩ := mem_livesWith.mp hb
          obtain ⟨hsa, _, hba⟩ := inv_of_mem hinv hamem
          obtain ⟨hsb, _, hbb⟩ := inv_of_mem hinv hbmem
          have hout2 := computeResolvant_some_eq hres
          have hsr : List.Sorted (· < ·) r := by
            rw [hout2]
            exact sorted_mergeUnion (sorted_erase hsb (negate x))
          refine clauseInv_intro hsr
            (not_opposite_of_sorted hsr (computeResolvant_some_noOpp hres)) ?_
          intro l hl
          rw [hout2, mem_mergeUnion] at hl
          rcases hl with hl | hl
          · exact hba l (List.mem_of_mem_erase hl)
          · exact hbb l (List.mem_of_mem_erase hl)
      · have hcp : (crossProduct st x).2 = st := by
          unfold crossProduct
          rw [if_neg hc]
        rw [hcp]
        exact hinv

theorem pLitTrue_applyLog_frame {Δ : List (Nat × List Nat)} {w : Nat}
    (hΔ : ∀ d ∈ Δ, litVar d.1 = w) (M : Nat → Option Bool) {t : Nat}
    (hv : litVar t ≠ w) : pLitTrue (applyLog Δ M) t = pLitTrue M t := by
  unfold pLitTrue
  rw [applyLog_frame hΔ M (litVar t) hv]

/-- Replaying the directives recorded by a variable elimination restores
satisfaction of the clauses that mentioned the variable: the directives for
the clauses containing `negate x` replay first (they were appended last),
then those for the clauses containing `x`. -/
theorem two_phase_replay (st : PState) (x : Nat) (hinv : InvState st)
    (M : Nat → Option Bool) (hM : totalBelow M st.post.numVars)
    (hs : ∀ cl, some cl ∈ st.clauses.map (killClause x)
        ++ (resolvantsOf st x).map some →
      cl.any (fun l => pLitTrue M l) = true) :
    ∀ cl, some cl ∈ st.clauses →
      cl.any (fun l => pLitTrue (applyLog
        ((livesWith st x).map (fun a => (x, a))
          ++ (livesWith st (negate x)).map (fun b => (negate x, b))) M) l)
        = true := by
  have hpropsx : ∀ d ∈ (livesWith st x).map (fun a => (x, a)),
      d.1 = x ∧ x ∈ d.2 := by
    intro d hd
    rw [List.mem_map] at hd
    obtain ⟨a, ha, he⟩ := hd
    rw [← he]
    exact ⟨rfl, (mem_livesWith.mp ha).2⟩
  have hpropsnx : ∀ d ∈ (livesWith st (negate x)).map (fun b => (negate x, b)),
      d.1 = negate x ∧ negate x ∈ d.2 := by
    intro d hd
    rw [List.mem_map] at hd
    obtain ⟨b, hb, he⟩ := hd
    rw [← he]
    exact ⟨rfl, (mem_livesWith.mp hb).2⟩
  have hframex : ∀ d ∈ (livesWith st x).map (fun a => (x, a)),
      litVar d.1 = litVar x := fun d hd => by rw [(hpropsx d hd).1]
  have hframenx : ∀ d ∈ (livesWith st (negate x)).map (fun b => (negate x, b)),
      litVar d.1 = litVar x := fun d hd => by
    rw [(hpropsnx d hd).1, litVar_negate]
  have hframe2 : ∀ t, litVar t ≠ litVar x →
      pLitTrue (applyLog ((livesWith st x).map (fun a => (x, a)))
        (applyLog ((livesWith st (negate x)).map (fun b => (negate x, b))) M)) t
        = pLitTrue M t := by
    intro t ht
    rw [pLitTrue_applyLog_frame hframex _ ht,
      pLitTrue_applyLog_frame hframenx _ ht]
  intro cl hm
  obtain ⟨hscl, hntcl, hbcl⟩ := inv_of_mem hinv hm
  rw [applyLog_append]
  by_cases hx : x ∈ cl
  · rcases applyLog_common hpropsx
        (applyLog ((livesWith st (negate x)).map (fun b => (negate x, b))) M)
      with ⟨heq2, hall2⟩ | ⟨heq2, _⟩
    · have hd : (x, cl) ∈ (livesWith st x).map (fun a => (x, a)) :=
        List.mem_map_of_mem _ (mem_livesWith.mpr ⟨hm, hx⟩)
      have h3 := hall2 (x, cl) hd
      rw [heq2]
      -- the inner replay only touches the variable of x, so use the frame
      -- to translate the certificate back or forward is not needed: h3 is
      -- already about the inner state
      exact h3
    · rw [heq2]
      have hw := pLitTrue_updLit_self
        (applyLog ((livesWith st (negate x)).map (fun b => (negate x, b))) M) x
      exact List.any_eq_true.mpr ⟨x, hx, hw⟩
  · by_cases hnx : negate x ∈ cl
    · rcases applyLog_common hpropsx
          (applyLog ((livesWith st (negate x)).map (fun b => (negate x, b))) M)
        with ⟨heq2, hall2⟩ | ⟨heq2, hex2⟩
      · rcases applyLog_common hpropsnx M with ⟨heq1, hall1⟩ | ⟨heq1, _⟩
        · have hd : (negate x, cl) ∈
              (livesWith st (negate x)).map (fun b => (negate x, b)) :=
            List.mem_map_of_mem _ (mem_livesWith.mpr ⟨hm, hnx⟩)
          have h3 := hall1 _ hd
          rw [heq2, heq1]
          exact h3
        · rw [heq2, heq1]
          have hw := pLitTrue_updLit_self M (negate x)
          exact List.any_eq_true.mpr ⟨negate x, hnx, hw⟩
      · -- the x-phase fired because some clause a0 of x had no true literal
        obtain ⟨d, hd, hdf⟩ := hex2
        obtain ⟨a0, ha0, hde⟩ := List.mem_map.mp hd
        have hdf2 : a0.any (fun t => pLitTrue
            (applyLog ((livesWith st (negate x)).map (fun b => (negate x, b))) M) t)
            = false := by
          rw [← hde] at hdf
          exact hdf
        have ha0false := any_false_elim hdf2
        obtain ⟨ha0mem, hxa0⟩ := mem_livesWith.mp ha0
        obtain ⟨hsa0, hnta0, hba0⟩ := inv_of_mem hinv ha0mem
        have ha0falseM : ∀ t ∈ a0, t ≠ x → pLitTrue M t = false := by
          intro t ht htx
          have hvt : litVar t ≠ litVar x := by
            intro he
            rcases litVar_eq_cases he with h1 | h1
            · exact htx h1
            · exact hnta0 x hxa0 (h1 ▸ ht)
          have h4 := ha0false t ht
          rw [pLitTrue_applyLog_frame hframenx _ hvt] at h4
          exact h4
        have hclw : cl ∈ livesWith st (negate x) := mem_livesWith.mpr ⟨hm, hnx⟩
        have hwitness : ∀ w, pLitTrue M w = true → w ∈ cl.erase (negate x) →
            cl.any (fun t => pLitTrue (applyLog
              ((livesWith st x).map (fun a => (x, a)))
              (applyLog ((livesWith st (negate x)).map (fun b => (negate x, b))) M)) t)
              = true := by
          intro w hwt hwm
          obtain ⟨hwne, hwcl⟩ := (mem_erase_sorted hscl).mp hwm
          have hwx : w ≠ x := fun he => hx (he ▸ hwcl)
          have hvw : litVar w ≠ litVar x := by
            intro he
            rcases litVar_eq_cases he with h1 | h1
            · exact hwx h1
            · exact hwne h1
          have h5 : pLitTrue (applyLog
              ((livesWith st x).map (fun a => (x, a)))
              (applyLog ((livesWith st (negate x)).map (fun b => (negate x, b))) M)) w
              = true := by
            rw [hframe2 w hvw]
            exact hwt
          exact List.any_eq_true.mpr ⟨w, hwcl, h5⟩
        cases hres : computeResolvant x a0 cl with
        | some out =>
            have houtm : some out ∈ st.clauses.map (killClause x)
                ++ (resolvantsOf st x).map some :=
              List.mem_append.mpr (Or.inr (mem_map_some.mpr
                (mem_resolvantsOf.mpr ⟨a0, ha0, cl, hclw, hres⟩)))
            obtain ⟨y, hy, hyt⟩ := List.any_eq_true.mp (hs out houtm)
            rw [computeResolvant_some_eq hres, mem_mergeUnion] at hy
            rcases hy with hy | hy
            · obtain ⟨hyne, hya0⟩ := (mem_erase_sorted hsa0).mp hy
              rw [ha0falseM y hya0 hyne] at hyt
              cases hyt
            · exact hwitness y hyt hy
        | none =>
            obtain ⟨z, hz, hnz⟩ :=
              hasOppositePair_sound (computeResolvant_none_opp hres)
            have hzb : z < 2 * st.post.numVars := by
              rw [mem_mergeUnion] at hz
              rcases hz with hz2 | hz2
              · exact hba0 z (List.mem_of_mem_erase hz2)
              · exact hbcl z (List.mem_of_mem_erase hz2)
            rcases pLitTrue_total_of_totalBelow hM hzb with hwt | hwt
            · rw [mem_mergeUnion] at hz
              rcases hz with hz2 | hz2
              · obtain ⟨hzne, hza0⟩ := (mem_erase_sorted hsa0).mp hz2
                rw [ha0falseM z hza0 hzne] at hwt
                cases hwt
              · exact hwitness z hwt hz2
            · rw [mem_mergeUnion] at hnz
              rcases hnz with hz2 | hz2
              · obtain ⟨hzne, hza0⟩ := (mem_erase_sorted hsa0).mp hz2
                rw [ha0falseM _ hza0 hzne] at hwt
                cases hwt
              · exact hwitness _ hwt hz2
    · -- untouched clause
      have hm2 : some cl ∈ st.clauses.map (killClause x)
          ++ (resolvantsOf st x).map some :=
        List.mem_append.mpr (Or.inl (killClause_mem_map hm hx hnx))
      obtain ⟨t, ht, htt⟩ := List.any_eq_true.mp (hs cl hm2)
      have h5 : pLitTrue (applyLog
          ((livesWith st x).map (fun a => (x, a)))
          (applyLog ((livesWith st (negate x)).map (fun b => (negate x, b))) M)) t
          = true := by
        rw [hframe2 t (litVar_ne_of_not_mem ht hx hnx)]
        exact htt
      exact List.any_eq_true.mpr ⟨t, ht, h5⟩

/-- Replaying the directives recorded when fixing a literal restores the
clauses that were removed because they contained it. -/
theorem fix_replay (st : PState) (l : Nat) (hinv : InvState st)
    (M : Nat → Option Bool)
    (hs : ∀ cl, some cl ∈ st.clauses.map (fixClause l) →
      cl.any (fun t => pLitTrue M t) = true) :
    ∀ cl, some cl ∈ st.clauses →
      cl.any (fun t => pLitTrue
        (applyLog ((livesWith st l).map (fun c => (l, c))) M) t) = true := by
  have hprops : ∀ d ∈ (livesWith st l).map (fun c => (l, c)),
      d.1 = l ∧ l ∈ d.2 := by
    intro d hd
    rw [List.mem_map] at hd
    obtain ⟨c, hc, he⟩ := hd
    rw [← he]
    exact ⟨rfl, (mem_livesWith.mp hc).2⟩
  have hframe : ∀ d ∈ (livesWith st l).map (fun c => (l, c)),
      litVar d.1 = litVar l := fun d hd => by rw [(hprops d hd).1]
  intro cl hm
  by_cases hlc : l ∈ cl
  · have hd : (l, cl) ∈ (livesWith st l).map (fun c => (l, c)) :=
      List.mem_map_of_mem _ (mem_livesWith.mpr ⟨hm, hlc⟩)
    rcases applyLog_common hprops M with ⟨heq, hall⟩ | ⟨heq, _⟩
    · rw [heq]
      exact hall (l, cl) hd
    · rw [heq]
      exact List.any_eq_true.mpr ⟨l, hlc, pLitTrue_updLit_self M l⟩
  · by_cases hnlc : negate l ∈ cl
    · have hm2 : some (cl.erase (negate l)) ∈ st.clauses.map (fixClause l) := by
        rw [List.mem_map]
        refine ⟨some cl, hm, ?_⟩
        simp only [fixClause]
        rw [if_neg hlc, if_pos hnlc]
      obtain ⟨t, ht, htt⟩ := List.any_eq_true.mp (hs _ hm2)
      have hscl := (inv_of_mem hinv hm).1
      obtain ⟨htne, htcl⟩ := (mem_erase_sorted hscl).mp ht
      have hvar : litVar t ≠ litVar l := by
        intro he
        rcases litVar_eq_cases he with h1 | h1
        · exact hlc (h1 ▸ htcl)
        · exact htne h1
      have h5 : pLitTrue
          (applyLog ((livesWith st l).map (fun c => (l, c))) M) t = true := by
        rw [pLitTrue_applyLog_frame hframe M hvar]
        exact htt
      exact List.any_eq_true.mpr ⟨t, htcl, h5⟩
    · have hm2 : some cl ∈ st.clauses.map (fixClause l) := by
        rw [List.mem_map]
        refine ⟨some cl, hm, ?_⟩
        simp only [fixClause]
        rw [if_neg hlc, if_neg hnlc]
      obtain ⟨t, ht, htt⟩ := List.any_eq_true.mp (hs cl hm2)
      have h5 : pLitTrue
          (applyLog ((livesWith st l).map (fun c => (l, c))) M) t = true := by
        rw [pLitTrue_applyLog_frame hframe M (litVar_ne_of_not_mem ht hlc hnlc)]
        exact htt
      exact List.any_eq_true.mpr ⟨t, ht, h5⟩

/-- One presolve step leaves the postsolver numbering alone, appends a block
of directives to the log, and replaying that block turns any assignment
satisfying the new clause set into one satisfying the old clause set. -/
theorem step_sound {st st' : PState} (h : Step st st') (hinv : InvState st) :
    st'.post.numVars = st.post.numVars ∧
    st'.post.reverseMapping = st.post.reverseMapping ∧
    ∃ Δ, st'.post.log = st.post.log ++ Δ ∧
      ∀ M, totalBelow M st.post.numVars → satLive st' M →
        satLive st (applyLog Δ M) := by
  cases h with
  | subsume i j a b hij hi hj hsub =>
      refine ⟨rfl, rfl, [], (List.append_nil _).symm, ?_⟩
      intro M _ hs
      rw [satLive_iff_forall_mem] at hs ⊢
      intro cl hm
      show cl.any (fun l => pLitTrue M l) = true
      rcases mem_set_or_eq (j := j) (v := (none : Option (List Nat))) hm
        with h1 | h1
      · exact hs cl h1
      · rw [hj] at h1
        have hcb : cl = b := Option.some.inj h1
        have hamem : some a ∈ st.clauses.set j none := by
          apply mem_of_getD (k := i)
          rw [getD_set_ne (Ne.symm hij)]
          exact hi
        obtain ⟨t, ht, htt⟩ := List.any_eq_true.mp (hs a hamem)
        exact List.any_eq_true.mpr ⟨t, by rw [hcb]; exact hsub t ht, htt⟩
  | strengthen i j a b y hij hi hj hy himg =>
      refine ⟨rfl, rfl, [], (List.append_nil _).symm, ?_⟩
      intro M _ hs
      rw [satLive_iff_forall_mem] at hs ⊢
      intro cl hm
      show cl.any (fun l => pLitTrue M l) = true
      rcases mem_set_or_eq (j := j) (v := some (b.erase y)) hm with h1 | h1
      · exact hs cl h1
      · rw [hj] at h1
        have hcb : cl = b := Option.some.inj h1
        have hjl : j < st.clauses.length := lt_length_of_getD hj
        have hmem2 : some (b.erase y) ∈ st.clauses.set j (some (b.erase y)) :=
          mem_of_getD (by rw [getD_set_self hjl])
        obtain ⟨t, ht, htt⟩ := List.any_eq_true.mp (hs _ hmem2)
        exact List.any_eq_true.mpr
          ⟨t, by rw [hcb]; exact List.mem_of_mem_erase ht, htt⟩
  | fixUnit i l hunit hfix =>
      have hspec := foldl_psAddU_spec l (livesWith st l) (psFixU st.post l)
      have hrev : st.post.reverseMapping = List.range st.post.numVars := hinv.2
      have harm : applyReverseMapping (psFixU st.post l)
          = applyReverseMapping st.post := rfl
      have hdeq : (livesWith st l).map
          (fun c => (applyReverseMapping (psFixU st.post l) l,
            c.map (applyReverseMapping (psFixU st.post l)))) =
          (livesWith st l).map (fun c => (l, c)) := by
        apply List.map_congr_left
        intro c hc
        obtain ⟨hmem, hlc⟩ := mem_livesWith.mp hc
        have hb := (inv_of_mem hinv hmem).2.2
        rw [harm, arm_id hrev (hb l hlc), arm_map_id hrev hb]
      refine ⟨hspec.2.2.2, hspec.2.1, (livesWith st l).map (fun c => (l, c)),
        ?_, ?_⟩
      · have h1 := hspec.1
        rw [hdeq] at h1
        exact h1
      · intro M _ hs
        rw [satLive_iff_forall_mem] at hs ⊢
        exact fix_replay st l hinv M hs
  | eliminate x hperf =>
      have hcond : (resolvantsOf st x).length <
          (livesWith st x).length + (livesWith st (negate x)).length := by
        by_contra hcond
        unfold crossProduct at hperf
        rw [if_neg hcond] at hperf
        exact Bool.false_ne_true hperf
      have hcp : (crossProduct st x).2 =
          { clauses := st.clauses.map (killClause x)
              ++ (resolvantsOf st x).map some,
            post := (livesWith st (negate x)).foldl
              (fun p b => psAddU p (negate x) b)
              ((livesWith st x).foldl (fun p a => psAddU p x a) st.post),
            numTrivial := st.numTrivial } := by
        unfold crossProduct
        rw [if_pos hcond]
      have hin := foldl_psAddU_spec x (livesWith st x) st.post
      have hout := foldl_psAddU_spec (negate x) (livesWith st (negate x))
        ((livesWith st x).foldl (fun p a => psAddU p x a) st.post)
      have hrev : st.post.reverseMapping = List.range st.post.numVars := hinv.2
      have harmq : applyReverseMapping
          ((livesWith st x).foldl (fun p a => psAddU p x a) st.post)
          = applyReverseMapping st.post := by
        funext t
        unfold applyReverseMapping
        rw [hin.2.1]
      have hdeqx : (livesWith st x).map
          (fun a => (applyReverseMapping st.post x,
            a.map (applyReverseMapping st.post))) =
          (livesWith st x).map (fun a => (x, a)) := by
        apply List.map_congr_left
        intro a ha
        obtain ⟨hmem, hxa⟩ := mem_livesWith.mp ha
        have hb := (inv_of_mem hinv hmem).2.2
        rw [arm_id hrev (hb x hxa), arm_map_id hrev hb]
      have hdeqnx : (livesWith st (negate x)).map
          (fun b => (applyReverseMapping st.post (negate x),
            b.map (applyReverseMapping st.post))) =
          (livesWith st (negate x)).map (fun b => (negate x, b)) := by
        apply List.map_congr_left
        intro b hb2
        obtain ⟨hmem, hxb⟩ := mem_livesWith.mp hb2
        have hb := (inv_of_mem hinv hmem).2.2
        rw [arm_id hrev (hb (negate x) hxb), arm_map_id hrev hb]
      refine ⟨by rw [hcp]; exact hout.2.2.2.trans hin.2.2.2,
        by rw [hcp]; exact hout.2.1.trans hin.2.1,
        (livesWith st x).map (fun a => (x, a))
          ++ (livesWith st (negate x)).map (fun b => (negate x, b)), ?_, ?_⟩
      · rw [hcp]
        show ((livesWith st (negate x)).foldl (fun p b => psAddU p (negate x) b)
          ((livesWith st x).foldl (fun p a => psAddU p x a) st.post)).log = _
        rw [hout.1, harmq, hdeqnx, hin.1, hdeqx, List.append_assoc]
      · intro M hM hs
        rw [hcp] at hs
        rw [satLive_iff_forall_mem] at hs ⊢
        exact two_phase_replay st x hinv M hM hs

/-! ### Composition over a presolve run, and the round trip (C1) -/

theorem steps_sound {st0 stF : PState}
    (h : Relation.ReflTransGen Step st0 stF) (hinv : InvState st0) :
    InvState stF ∧
    stF.post.numVars = st0.post.numVars ∧
    stF.post.reverseMapping = st0.post.reverseMapping ∧
    ∃ Δ, stF.post.log = st0.post.log ++ Δ ∧
      ∀ M, totalBelow M st0.post.numVars → satLive stF M →
        satLive st0 (applyLog Δ M) := by
  induction h with
  | refl =>
      exact ⟨hinv, rfl, rfl, [], (List.append_nil _).symm, fun M _ hs => hs⟩
  | tail hsteps hstep ih =>
      obtain ⟨hinv1, hn1, hr1, Δ1, hlog1, hrep1⟩ := ih
      obtain ⟨hn2, hr2, Δ2, hlog2, hrep2⟩ := step_sound hstep hinv1
      refine ⟨step_inv hstep hinv1, hn2.trans hn1, hr2.trans hr1,
        Δ1 ++ Δ2, ?_, ?_⟩
      · rw [hlog2, hlog1, List.append_assoc]
      · intro M hM hsF
        rw [applyLog_append]
        refine hrep1 (applyLog Δ2 M) (totalBelow_applyLog hM) (hrep2 M ?_ hsF)
        rw [hn1]
        exact hM

theorem foldl_addClause_spec (S : List (List Nat)) :
    ∀ st : PState,
      (S.foldl addClause st).clauses = st.clauses
        ++ (S.filter (fun c => !isTrivialClause c)).map
          (fun c => some (sortDedup c)) ∧
      (S.foldl addClause st).post = st.post := by
  induction S with
  | nil => exact fun st => ⟨(List.append_nil _).symm, rfl⟩
  | cons c rest ih =>
      intro st
      obtain ⟨h1, h2⟩ := ih (addClause st c)
      have hfold : (c :: rest).foldl addClause st
          = rest.foldl addClause (addClause st c) := rfl
      constructor
      · rw [hfold, h1]
        by_cases ht : isTrivialClause c = true
        · rw [show (addClause st c).clauses = st.clauses from by
            unfold addClause; rw [if_pos ht]]
          rw [List.filter_cons_of_neg (by rw [ht]; exact Bool.false_ne_true)]
        · have ht2 : isTrivialClause c = false := Bool.not_eq_true _ |>.mp ht
          rw [show (addClause st c).clauses = st.clauses ++ [some (sortDedup c)]
            from by unfold addClause; rw [if_neg ht]]
          rw [List.filter_cons_of_pos (by rw [ht2]; rfl), List.map_cons,
            List.append_assoc]
          rfl
      · rw [hfold, h2]
        unfold addClause
        by_cases ht : isTrivialClause c = true
        · rw [if_pos ht]
        · rw [if_neg ht]

theorem initState_inv {n : Nat} {S : List (List Nat)}
    (hvars : ∀ c ∈ S, ∀ l ∈ c, l < 2 * n) : InvState (initState n S) := by
  have hspec := foldl_addClause_spec S ⟨[], initPostsolver n, 0⟩
  constructor
  · refine (forall_getD_iff_forall_mem rfl).mpr ?_
    intro oc hm
    rw [show (initState n S).clauses
        = ([] : List (Option (List Nat)))
          ++ (S.filter (fun c => !isTrivialClause c)).map
            (fun c => some (sortDedup c)) from hspec.1] at hm
    rw [List.nil_append, List.mem_map] at hm
    obtain ⟨c, hcf, he⟩ := hm
    obtain ⟨hcS, hcnt⟩ := List.mem_filter.mp hcf
    have hnt : ∀ l ∈ c, negate l ∉ c := by
      intro l hl hnl
      have h2 : isTrivialClause c = true := isTrivialClause_iff.mpr ⟨l, hl, hnl⟩
      rw [h2] at hcnt
      cases hcnt
    rw [← he]
    have hnum : (initState n S).post.numVars = n := by
      unfold initState
      rw [hspec.2]
      rfl
    rw [hnum]
    refine clauseInv_intro (sorted_sortDedup c) ?_ ?_
    · intro l hl hnl
      exact hnt l (mem_sortDedup.mp hl) (mem_sortDedup.mp hnl)
    · intro l hl
      exact hvars c hcS l (mem_sortDedup.mp hl)
  · show (initState n S).post.reverseMapping
      = List.range (initState n S).post.numVars
    unfold initState
    rw [hspec.2]
    rfl

theorem findPre_map_succ (rs : List Nat) (u : Nat) :
    findPre (rs.map (· + 1)) (u + 1) = findPre rs u := by
  induction rs with
  | nil => rfl
  | cons r rest ih =>
      simp only [List.map_cons, findPre]
      by_cases h : r = u
      · rw [if_pos (show r + 1 = u + 1 by omega), if_pos h]
      · rw [if_neg (show ¬(r + 1 = u + 1) by omega), if_neg h, ih]

theorem findPre_map_succ_zero (rs : List Nat) :
    findPre (rs.map (· + 1)) 0 = none := by
  induction rs with
  | nil => rfl
  | cons r rest ih =>
      simp only [List.map_cons, findPre]
      rw [if_neg (by omega), ih]
      rfl

theorem findPre_range (n : Nat) :
    ∀ u, findPre (List.range n) u = if u < n then some u else none := by
  induction n with
  | zero =>
      intro u
      rw [List.range_zero, if_neg (by omega)]
      rfl
  | succ m ih =>
      intro u
      rw [List.range_succ_eq_map]
      cases u with
      | zero =>
          simp only [findPre]
          rw [if_pos (by trivial), if_pos (by omega)]
      | succ u2 =>
          simp only [findPre]
          rw [if_neg (by omega), findPre_map_succ, ih u2]
          by_cases hu : u2 < m
          · rw [if_pos hu, if_pos (by omega)]
            rfl
          · rw [if_neg hu, if_neg (by omega)]
            rfl

/-- C1: for any clause set `S` loaded into the presolver and any sequence of
presolve operations producing a simplified clause set and a postsolver, if
an assignment satisfies every live clause of the simplified set, then
`PostsolveSolution` returns a total assignment over the original variables
that satisfies every clause of the original `S`. -/
theorem c1_round_trip (n : Nat) (S : List (List Nat))
    (hvars : ∀ c ∈ S, ∀ l ∈ c, l < 2 * n)
    (stF : PState) (hsteps : Relation.ReflTransGen Step (initState n S) stF)
    (A : Nat → Bool) (hsat : satLive stF (toPA A)) :
    ∀ c ∈ S, ∃ l ∈ c,
      (postsolveSolution stF.post A).getD (litVar l) false = pol l := by
  have hspec := foldl_addClause_spec S ⟨[], initPostsolver n, 0⟩
  have hpost0 : (initState n S).post = initPostsolver n := hspec.2
  have hinv0 : InvState (initState n S) := initState_inv hvars
  obtain ⟨hinvF, hnF, hrF, Δ, hlogΔ, hrep⟩ := steps_sound hsteps hinv0
  have hnum : stF.post.numVars = n := by rw [hpost0] at hnF; exact hnF
  have hrevF : stF.post.reverseMapping = List.range n := by
    rw [hpost0] at hrF; exact hrF
  have hlog : stF.post.log = Δ := by
    rw [hpost0] at hlogΔ
    simpa using hlogΔ
  have hM0 : ∀ u, solutionAssign stF.post A u
      = if u < n then some (A u) else stF.post.assignment u := by
    intro u
    unfold solutionAssign
    rw [hrevF, findPre_range]
    by_cases hu : u < n
    · rw [if_pos hu, if_pos hu]
    · rw [if_neg hu, if_neg hu]
  have htb : totalBelow (solutionAssign stF.post A) n := by
    intro v hv
    exact ⟨A v, by rw [hM0 v, if_pos hv]⟩
  have htb0 : totalBelow (solutionAssign stF.post A)
      (initState n S).post.numVars := by
    rw [hpost0]
    exact htb
  have hsatM0 : satLive stF (solutionAssign stF.post A) := by
    rw [satLive_iff_forall_mem] at hsat ⊢
    intro cl hm
    obtain ⟨l, hl, hlt⟩ := List.any_eq_true.mp (hsat cl hm)
    have hbl := (inv_of_mem hinvF hm).2.2 l hl
    rw [hnum] at hbl
    have hvl : litVar l < n := by unfold litVar; omega
    refine List.any_eq_true.mpr ⟨l, hl, ?_⟩
    unfold pLitTrue at hlt ⊢
    rw [hM0 (litVar l), if_pos hvl]
    exact hlt
  have hsat0 := hrep (solutionAssign stF.post A) htb0 hsatM0
  rw [satLive_iff_forall_mem] at hsat0
  have hext : ∀ l, l < 2 * n →
      pLitTrue (applyLog stF.post.log (solutionAssign stF.post A)) l = true →
      (postsolveSolution stF.post A).getD (litVar l) false = pol l := by
    intro l hl hpt
    unfold postsolveSolution
    have hvl : litVar l < stF.post.numVars := by
      rw [hnum]; unfold litVar; omega
    rw [List.getD_eq_getElem?_getD, List.getElem?_map,
      List.getElem?_range hvl]
    show (applyLog stF.post.log (solutionAssign stF.post A)
      (litVar l)).getD false = pol l
    unfold pLitTrue at hpt
    rw [beq_iff_eq] at hpt
    rw [hpt]
    rfl
  intro c hc
  by_cases htriv : isTrivialClause c = true
  · obtain ⟨l, hl, hnl⟩ := isTrivialClause_iff.mp htriv
    by_cases he : (postsolveSolution stF.post A).getD (litVar l) false = pol l
    · exact ⟨l, hl, he⟩
    · refine ⟨negate l, hnl, ?_⟩
      have hval : (postsolveSolution stF.post A).getD (litVar l) false
          = !pol l := by
        cases hv : (postsolveSolution stF.post A).getD (litVar l) false with
        | false =>
            cases hp : pol l with
            | true => rfl
            | false => exact absurd (hv.trans hp.symm) he
        | true =>
            cases hp : pol l with
            | false => rfl
            | true => exact absurd (hv.trans hp.symm) he
      rw [litVar_negate, pol_negate, hval]
  · have hmem : some (sortDedup c) ∈ (initState n S).clauses := by
      rw [show (initState n S).clauses
          = ([] : List (Option (List Nat)))
            ++ (S.filter (fun c => !isTrivialClause c)).map
              (fun c => some (sortDedup c)) from hspec.1]
      rw [List.nil_append]
      refine List.mem_map_of_mem _ ?_
      refine List.mem_filter.mpr ⟨hc, ?_⟩
      rw [Bool.not_eq_true _ |>.mp htriv]
      rfl
    have hsatc := hsat0 _ hmem
    obtain ⟨l, hl2, hlt⟩ := List.any_eq_true.mp hsatc
    have hlc : l ∈ c := mem_sortDedup.mp hl2
    refine ⟨l, hlc, ?_⟩
    apply hext l (hvars c hc l hlc)
    rw [hlog]
    exact hlt

theorem c1_round_trip_witness :
    (∀ c ∈ ([[0, 2], [0]] : List (List Nat)), ∀ l ∈ c, l < 2 * 2) ∧
    (∀ c ∈ ([[0, 2], [0]] : List (List Nat)), ∃ l ∈ c,
      (postsolveSolution (removeAt (initState 2 [[0, 2], [0]]) 0).post
        (fun _ => true)).getD (litVar l) false = pol l) :=
  ⟨by decide,
   c1_round_trip 2 [[0, 2], [0]] (by decide)
     (removeAt (initState 2 [[0, 2], [0]]) 0)
     (Relation.ReflTransGen.single
       (Step.subsume (initState 2 [[0, 2], [0]]) 1 0 [0] [0, 2]
         (by decide) (by decide) (by decide) (by decide)))
     (fun _ => true)
     (by unfold satLive; decide)⟩

/-! ### The presolve driver and its boolean result (C4) -/

/-- Modelled from the spec: the UNSAT derivation condition of `Presolve()`
(spec: a clause strengthened to empty, or an already-fixed variable
contradicted): the database holds a live empty clause, or a live unit
clause whose literal is the opposite of a value already fixed in the
postsolver assignment. -/
def unsatB (st : PState) : Bool :=
  st.clauses.any (fun oc =>
    match oc with
    | some [] => true
    | some [l] =>
        st.post.assignment (litVar (applyReverseMapping st.post l))
          == some (!pol (applyReverseMapping st.post l))
    | _ => false)

/-- Modelled from the spec: the unit-propagation part of the driver picks a
live unit clause whose variable is not yet fixed and fixes its literal. -/
def unitPick (st : PState) : Option PState :=
  (List.range st.clauses.length).findSome? (fun i =>
    match st.clauses.getD i none with
    | some [l] =>
        if st.post.assignment (litVar (applyReverseMapping st.post l)) = none
        then some (fixLiteral st l) else none
    | _ => none)

/-- Modelled from the spec: `ProcessClauseToSimplifyOthers` picks a pair of
distinct live clauses on which `SimplifyClause` fires, and either removes
the subsumed clause or strengthens it. -/
def simpPick (st : PState) : Option PState :=
  (List.range st.clauses.length).findSome? (fun i =>
    (List.range st.clauses.length).findSome? (fun j =>
      if i = j then none
      else
        match st.clauses.getD i none, st.clauses.getD j none with
        | some a, some b =>
            (match simplifyClause a b with
             | some (none, _) => some (removeAt st j)
             | some (some _, b2) => some (strengthenAt st j b2)
             | none => none)
        | _, _ => none))

/-- Modelled from the spec: the bounded-variable-elimination part of the
driver tries `CrossProduct` on every literal and keeps the first
elimination that is actually performed. -/
def elimPick (st : PState) : Option PState :=
  (List.range (2 * st.post.numVars)).findSome? (fun x =>
    if (crossProduct st x).1 then some (crossProduct st x).2 else none)

/-- Modelled from the spec: one driver iteration of `Presolve()` (spec 4.4):
unit propagation first, then subsumption and self-subsuming resolution,
then bounded variable elimination; `none` when nothing applies. -/
def driverPick (st : PState) : Option PState :=
  match unitPick st with
  | some st2 => some st2
  | none =>
    match simpPick st with
    | some st2 => some st2
    | none => elimPick st

/-- Modelled from the spec: `SatPresolver::Presolve()` with explicit fuel:
it repeatedly applies driver iterations, stops with `false` as soon as the
UNSAT condition is derived, and stops with `true` when no rule applies (or
the fuel runs out with no UNSAT derived). -/
def presolve : Nat → PState → Bool × PState
  | 0, st => (!unsatB st, st)
  | fuel + 1, st =>
      if unsatB st then (false, st)
      else
        match driverPick st with
        | some st2 => presolve fuel st2
        | none => (true, st)

/-- C4: `Presolve()` returns false exactly when UNSAT is derived during the
presolve — an empty clause appears, or a unit clause contradicts an
already-fixed variable — and true in every other case, regardless of the
actual satisfiability of the model: the boolean result is false iff the
state reached exhibits the UNSAT derivation condition. -/
theorem c4_presolve (fuel : Nat) (st : PState) :
    (presolve fuel st).1 = false ↔ unsatB (presolve fuel st).2 = true := by
  induction fuel generalizing st with
  | zero =>
      show (!unsatB st) = false ↔ unsatB st = true
      cases h : unsatB st <;> simp [h]
  | succ fuel ih =>
      rw [presolve]
      by_cases h : unsatB st = true
      · rw [if_pos h]
        simp [h]
      · have h2 : unsatB st = false := Bool.not_eq_true _ |>.mp h
        rw [if_neg h]
        cases hd : driverPick st with
        | some st2 => exact ih st2
        | none => simp [h2]

end SatSimp
